import Mathlib

/-!
Verification development for the Delta Mini-Language Parser and State Merge
Engine ("CST engine") of the Chatbox testbed repository.

Modelling conventions.
A Python value stored in the state tree is embedded as `Val`; a Python `dict`
is an ordered association list (`PyDict`), which is how CPython dicts behave:
key insertion order is preserved, assignment to an existing key keeps its
position, and assignment to a fresh key appends it at the end.
A Python function that can raise an exception is embedded as a function into
`Option`, with `none` denoting "the call raised".  Machine strings are Lean
`String`s (Python `len`/slicing count code points, as Lean's `String.length`
and `String.take` do).
-/

/-- Value stored in a Python-style state tree: a string, an int, `None`,
a list, or a nested dict (ordered association list). -/
inductive Val where
  | vstr (s : String)
  | vint (n : Int)
  | vnone
  | vlist (xs : List Val)
  | vdict (entries : List (String × Val))
deriving Repr

/-- Ordered association list embedding a Python dict. -/
abbrev PyDict := List (String × Val)

/-- Lookup of a key in an ordered dict (first occurrence wins). -/
def lookupK : PyDict → String → Option Val
  | [], _ => none
  | (k', v) :: t, k => if k' = k then some v else lookupK t k

/-- Membership of a key in an ordered dict. -/
def keyMem (l : PyDict) (k : String) : Bool := (lookupK l k).isSome

/-- Python `d[k] = v`: replace in place if present (keeping the position of the
first occurrence), otherwise append at the end. -/
def setK : PyDict → String → Val → PyDict
  | [], k, v => [(k, v)]
  | (k', v') :: t, k, v => if k' = k then (k, v) :: t else (k', v') :: setK t k v

/-- Python `d.setdefault(k, v)` viewed as a dict transformer: append `(k, v)`
at the end when `k` is absent, otherwise leave the dict unchanged. -/
def setDefault (l : PyDict) (k : String) (v : Val) : PyDict :=
  if keyMem l k then l else l ++ [(k, v)]

/-- Keys of an ordered dict, in order. -/
def keysOf (l : PyDict) : List String := l.map Prod.fst

/-- Python truthiness of an embedded value. -/
def pyTruthy : Val → Bool
  | .vstr s => s != ""
  | .vint n => n != 0
  | .vnone => false
  | .vlist xs => !xs.isEmpty
  | .vdict l => !l.isEmpty

/-- Python `dict(x)` on a truthy value: a dict copies its entries; any other
truthy value used by this code base raises, embedded as `none`. -/
def pyDictCoerce : Val → Option PyDict
  | .vdict l => some l
  | _ => none

-- Basic lemmas about the dict operations.

theorem lookupK_setK_self (l : PyDict) (k : String) (v : Val) :
    lookupK (setK l k v) k = some v := by
  induction l with
  | nil => simp [setK, lookupK]
  | cons hd t ih =>
    obtain ⟨k', v'⟩ := hd
    by_cases h : k' = k
    · simp [setK, h, lookupK]
    · simp [setK, h, lookupK, ih]

theorem lookupK_setK_ne (l : PyDict) (k k' : String) (v : Val) (h : k' ≠ k) :
    lookupK (setK l k v) k' = lookupK l k' := by
  induction l with
  | nil => simp [setK, lookupK, Ne.symm h]
  | cons hd t ih =>
    obtain ⟨k0, v0⟩ := hd
    by_cases h0 : k0 = k
    · subst h0
      simp [setK, lookupK, Ne.symm h]
    · simp [setK, h0, lookupK, ih]

theorem setK_self (l : PyDict) (k : String) (v : Val) (h : lookupK l k = some v) :
    setK l k v = l := by
  induction l with
  | nil => simp [lookupK] at h
  | cons hd t ih =>
    obtain ⟨k0, v0⟩ := hd
    by_cases h0 : k0 = k
    · subst h0
      simp [lookupK] at h
      simp [setK, h]
    · simp [lookupK, h0] at h
      simp [setK, h0, ih h]

theorem lookupK_append_not_mem (l : PyDict) (k : String) (v : Val)
    (h : keyMem l k = false) : lookupK (l ++ [(k, v)]) k = some v := by
  induction l with
  | nil => simp [lookupK]
  | cons hd t ih =>
    obtain ⟨k0, v0⟩ := hd
    by_cases h0 : k0 = k
    · simp [keyMem, lookupK, h0] at h
    · simp [keyMem, lookupK, h0] at h
      simp [lookupK, h0, ih (by simp [keyMem, h])]

theorem lookupK_append_ne (l : PyDict) (k k' : String) (v : Val) (h : k' ≠ k) :
    lookupK (l ++ [(k, v)]) k' = lookupK l k' := by
  induction l with
  | nil => simp [lookupK, Ne.symm h]
  | cons hd t ih =>
    obtain ⟨k0, v0⟩ := hd
    by_cases h0 : k0 = k'
    · simp [lookupK, h0]
    · simp [lookupK, h0, ih]

theorem setDefault_of_mem (l : PyDict) (k : String) (v : Val)
    (h : keyMem l k = true) : setDefault l k v = l := by
  simp [setDefault, h]

theorem lookupK_setDefault_ne (l : PyDict) (k k' : String) (v : Val) (h : k' ≠ k) :
    lookupK (setDefault l k v) k' = lookupK l k' := by
  unfold setDefault
  by_cases hm : keyMem l k
  · simp [hm]
  · simp [hm, lookupK_append_ne l k k' v h]

theorem keyMem_setDefault_self (l : PyDict) (k : String) (v : Val) :
    keyMem (setDefault l k v) k = true := by
  unfold setDefault
  by_cases hm : keyMem l k
  · simp only [hm, if_pos]
  · have hmm : keyMem l k = false := by simpa using hm
    simp only [keyMem] at hmm
    simp only [keyMem, hmm]
    simp [lookupK_append_not_mem l k v (by simpa [keyMem] using hmm)]

theorem lookupK_setDefault_not_mem (l : PyDict) (k : String) (v : Val)
    (h : keyMem l k = false) : lookupK (setDefault l k v) k = some v := by
  simp [setDefault, h, lookupK_append_not_mem l k v h]

theorem keysOf_setK_mem (l : PyDict) (k : String) (v : Val)
    (h : keyMem l k = true) : keysOf (setK l k v) = keysOf l := by
  induction l with
  | nil => simp [keyMem, lookupK] at h
  | cons hd t ih =>
    obtain ⟨k0, v0⟩ := hd
    by_cases h0 : k0 = k
    · simp [setK, h0, keysOf]
    · simp [keyMem, lookupK, h0] at h
      simp [setK, h0, keysOf] at ih ⊢
      exact ih (by simpa [keyMem] using h)

theorem keysOf_setK_not_mem (l : PyDict) (k : String) (v : Val)
    (h : keyMem l k = false) : keysOf (setK l k v) = keysOf l ++ [k] := by
  induction l with
  | nil => simp [setK, keysOf]
  | cons hd t ih =>
    obtain ⟨k0, v0⟩ := hd
    by_cases h0 : k0 = k
    · simp [keyMem, lookupK, h0] at h
    · simp [keyMem, lookupK, h0] at h
      simp [setK, h0, keysOf] at ih ⊢
      exact ih (by simpa [keyMem] using h)

theorem keysOf_setDefault (l : PyDict) (k : String) (v : Val) :
    keysOf (setDefault l k v) =
      keysOf l ++ (if keyMem l k then [] else [k]) := by
  unfold setDefault
  by_cases hm : keyMem l k
  · simp [hm]
  · simp [hm, keysOf]

theorem keyMem_mem_keysOf (l : PyDict) (k : String) :
    keyMem l k = true ↔ k ∈ keysOf l := by
  induction l with
  | nil => simp [keyMem, lookupK, keysOf]
  | cons hd t ih =>
    obtain ⟨k0, v0⟩ := hd
    by_cases h0 : k0 = k
    · simp [keyMem, lookupK, h0, keysOf]
    · simp [keyMem, lookupK, h0, keysOf, h0] at ih ⊢
      constructor
      · intro h
        exact Or.inr (ih.mp (by simpa [keyMem] using h))
      · intro h
        rcases h with h | h
        · exact absurd h.symm h0
        · simpa [keyMem] using ih.mpr h

-- Python string primitives used by the engine.

/-- Characters of the Python `\s` / `str.strip` whitespace class (ASCII). -/
def isPySpace (c : Char) : Bool :=
  c == ' ' || c == '\t' || c == '\n' || c == '\r' || c == '\x0b' || c == '\x0c'

theorem length_dropWhile_le_py (p : Char → Bool) (l : List Char) :
    (l.dropWhile p).length ≤ l.length := by
  induction l with
  | nil => simp [List.dropWhile]
  | cons c t ih =>
    by_cases h : p c
    · simp [List.dropWhile, h]; omega
    · simp [List.dropWhile, h]

/-- Python `str.strip()` on a character list. -/
def pyStripL (l : List Char) : List Char :=
  ((l.dropWhile isPySpace).reverse.dropWhile isPySpace).reverse

/-- Python `str.strip()`. -/
def pyStrip (s : String) : String := ⟨pyStripL s.data⟩

/-- Python `str.lower()` (ASCII range, which is all this code base feeds it). -/
def pyLower (s : String) : String := ⟨s.data.map Char.toLower⟩

/-- Python `str.upper()` (ASCII range). -/
def pyUpper (s : String) : String := ⟨s.data.map Char.toUpper⟩

/-- Python `str.rstrip()` with no argument (trailing whitespace). -/
def pyRstripWs (s : String) : String :=
  ⟨(s.data.reverse.dropWhile isPySpace).reverse⟩

/-- Python `str.rstrip(",")` (trailing commas). -/
def pyRstripCommas (s : String) : String :=
  ⟨(s.data.reverse.dropWhile (· == ',')).reverse⟩

/-- Separator characters of the append merge policy (`re.split(r"[;|,/]\s*", ...)`
and the `endswith` check of `_append_text`). -/
def isSepChar (c : Char) : Bool := c == ';' || c == '|' || c == ',' || c == '/'

/-- Splitting on `[;|,/]\s*` as `re.split` does: each separator character
ends the current piece, and the whitespace run following a separator is
consumed (tracked by the `afterSep` flag). -/
def splitSepsAux : List Char → List Char → Bool → List (List Char)
  | [], acc, _ => [acc.reverse]
  | c :: rest, acc, afterSep =>
    if afterSep = true ∧ isPySpace c = true then splitSepsAux rest acc true
    else if isSepChar c then acc.reverse :: splitSepsAux rest [] true
    else splitSepsAux rest (c :: acc) false

def splitSepsL (l : List Char) : List (List Char) := splitSepsAux l [] false

/-- Token list of `_append_text`'s duplicate check:
`[t.strip().lower() for t in re.split(r"[;|,/]\s*", ex) if t.strip()]`. -/
def tokensOfL (l : List Char) : List (List Char) :=
  (splitSepsL l).filterMap (fun t =>
    let ts := pyStripL t
    if ts.isEmpty then none else some (ts.map Char.toLower))

-- Python `str()` / `repr()` on embedded values (reached by `_append_text`
-- only when a non-string value sits at an append-policy leaf).

/-- Escape one character for Python string repr with quote character `q`. -/
def escapePyChar (q : Char) (c : Char) : List Char :=
  if c == '\\' then ['\\', '\\']
  else if c == q then ['\\', q]
  else if c == '\n' then ['\\', 'n']
  else if c == '\r' then ['\\', 'r']
  else if c == '\t' then ['\\', 't']
  else [c]

/-- Python `repr` of a string: prefers single quotes, switches to double quotes
when the string contains a single quote but no double quote. -/
def pyStrRepr (s : String) : String :=
  let q : Char := if s.data.contains '\'' && !(s.data.contains '"') then '"' else '\''
  ⟨[q] ++ (s.data.foldr (fun c acc => escapePyChar q c ++ acc) []) ++ [q]⟩

mutual

/-- Python `repr` of an embedded value. -/
def pyReprVal : Val → String
  | .vstr s => pyStrRepr s
  | .vint n => toString n
  | .vnone => "None"
  | .vlist xs => "[" ++ pyReprItems xs ++ "]"
  | .vdict es => "\x7b" ++ pyReprEntries es ++ "\x7d"

def pyReprItems : List Val → String
  | [] => ""
  | [x] => pyReprVal x
  | x :: y :: rest => pyReprVal x ++ ", " ++ pyReprItems (y :: rest)

def pyReprEntries : List (String × Val) → String
  | [] => ""
  | [(k, v)] => pyStrRepr k ++ ": " ++ pyReprVal v
  | (k, v) :: e :: rest =>
    pyStrRepr k ++ ": " ++ pyReprVal v ++ ", " ++ pyReprEntries (e :: rest)

end

/-- Python `str()` of an embedded value: identity on strings, `repr`-based
printing on containers, `"None"` on `None`. -/
def pyStr : Val → String
  | .vstr s => s
  | v => pyReprVal v

/-- Embedding of `_is_none_like` (identical in generator.py and
prompt_helper.py): `None`, and any value whose `str()` strips to the empty
string or, lowercased, to one of `none`, `null`, `n/a`. -/
def isNoneLike (s : Option Val) : Bool :=
  match s with
  | none => true
  | some v =>
    let t := pyStrip (pyStr v)
    t == "" || pyLower t == "none" || pyLower t == "null" || pyLower t == "n/a"

/-- Last character of a string, with a default for the empty string (used only
behind a nonemptiness guard, mirroring `str.endswith` on a tuple). -/
def lastCharD (s : String) : Char := s.data.getLastD ' '

/-- Embedding of `_append_text` (identical in generator.py and
prompt_helper.py).  Returns the value assigned to the leaf: the early branch
for an empty new value returns `existing or ""` (which is whatever value was
already there when truthy), every other branch returns a string. -/
def appendCore (existing : Option Val) (n : String) (sep : String) : String :=
  if isNoneLike existing then n
  else
    let ex := pyStrip (pyStr (match existing with | some v => v | none => .vnone))
    if (tokensOfL ex.data).contains (pyLower n).data then ex
    else if ex != "" && isSepChar (lastCharD ex) then ex ++ " " ++ n
    else ex ++ sep ++ n

def appendText (existing : Option Val) (newv : String) (sep : String)
    (maxLen : Option Nat) : Val :=
  let n := pyStrip newv
  if n == "" then
    match existing with
    | some v => if pyTruthy v then v else .vstr ""
    | none => .vstr ""
  else
    let result := appendCore existing n sep
    .vstr (match maxLen with
      | some L => if result.length > L then pyRstripWs (result.take L) else result
      | none => result)

-- Embedding of the generator.py schema variant.

/-- Domain Set of generator.py (`ALLOWED_DOMAINS`), in the fixed iteration
order used by this embedding (`sorted(ALLOWED_DOMAINS)`). -/
def genDomains : List String := ["activity", "nutrition", "sleep"]

/-- Goal Key Set of generator.py (`ALLOWED_GOAL_KEYS`), in declaration order. -/
def genGoalKeys : List String :=
  ["Specific", "Measurable", "Attainable", "Reward", "Timeframe"]

def genDomMem (s : String) : Bool := genDomains.contains s

def genGoalKeyMem (s : String) : Bool := genGoalKeys.contains s

/-- Default agenda text installed by generator.py's `ensure_fixed_state_shape`. -/
def genAgendaDefault : String :=
  "Choose one domain to focus on: activity, meal/nutrition, or sleep."

/-- Value stored under the `allowed_domains` key: `sorted(ALLOWED_DOMAINS)`. -/
def allowedDomainsVal : Val :=
  .vlist [.vstr "activity", .vstr "nutrition", .vstr "sleep"]

/-- Python `dict(d or {})`: the empty dict for a falsy value, a copy of a dict,
an exception (`none`) for any other truthy value fed by this code base. -/
def dictOrEmpty (d : Option Val) : Option PyDict :=
  match d with
  | none => some []
  | some v => if pyTruthy v then pyDictCoerce v else some []

/-- Embedding of generator.py `_ensure_domain`: default `existing_plan`,
`progress`, `goal_set` (with every Goal Key), `barrier`.  `none` models the
`AttributeError` raised when a present `goal_set` is not a dict, and the
error raised by `dict(d)` on a truthy non-dict. -/
def genEnsureDomain (d : Option Val) : Option PyDict :=
  match dictOrEmpty d with
  | none => none
  | some d0 =>
    let d1 := setDefault d0 "existing_plan" (.vstr "")
    let d2 := setDefault d1 "progress" (.vstr "")
    let d3 := setDefault d2 "goal_set" (.vdict [])
    match lookupK d3 "goal_set" with
    | some (.vdict g) =>
      let g1 := genGoalKeys.foldl (fun acc k => setDefault acc k (.vstr "")) g
      let d4 := setK d3 "goal_set" (.vdict g1)
      some (setDefault d4 "barrier" (.vstr ""))
    | _ => none

/-- Loop `for dom in ALLOWED_DOMAINS: st[dom] = _ensure_domain(st.get(dom))`. -/
def genEnsureDomains : PyDict → List String → Option PyDict
  | st, [] => some st
  | st, d :: ds =>
    match genEnsureDomain (lookupK st d) with
    | some dd => genEnsureDomains (setK st d (.vdict dd)) ds
    | none => none

/-- Embedding of generator.py `ensure_fixed_state_shape` (the Shape
Normalizer): defaults `session` (with `session_timestamp` and `agenda`),
`allowed_domains`, and every domain.  `none` models the `AttributeError`
raised when a present `session` value is not a dict. -/
def genEnsureFixedStateShape (state : Option Val) : Option PyDict :=
  match dictOrEmpty state with
  | none => none
  | some st0 =>
    let st1 := setDefault st0 "session" (.vdict [])
    match lookupK st1 "session" with
    | some (.vdict s) =>
      let s1 := setDefault s "session_timestamp" (.vstr "")
      let s2 := setDefault s1 "agenda" (.vstr genAgendaDefault)
      let st2 := setK st1 "session" (.vdict s2)
      let st3 := setDefault st2 "allowed_domains" allowedDomainsVal
      genEnsureDomains st3 genDomains
    | _ => none

/-- Split a nonempty list into its leading segments and last element
(`path[:-1]` and `path[-1]`). -/
def splitLast : List String → Option (List String × String)
  | [] => none
  | [x] => some ([], x)
  | x :: y :: rest =>
    match splitLast (y :: rest) with
    | some (p, l) => some (x :: p, l)
    | none => none

/-- Descent loop of `apply_deltas`: walk the keys, replacing a missing or
non-dict entry by a fresh empty dict, then transform the dict reached at the
end.  This models the in-place mutation `node[key] = ...; node = node[key]`. -/
def updateAtPath (t : PyDict) (p : List String) (f : PyDict → PyDict) : PyDict :=
  match p with
  | [] => f t
  | k :: ks =>
    let sub := match lookupK t k with | some (.vdict l) => l | _ => []
    setK t k (.vdict (updateAtPath sub ks f))

/-- Embedding of one iteration of generator.py `apply_deltas`' loop: descend
(creating dicts), then write the leaf when the path shape is one the merge
engine recognizes; otherwise leave the node untouched (the descent's created
dicts remain). -/
def genApplyOne (st : PyDict) (p : List String) (value : String) : PyDict :=
  match splitLast p with
  | none => st
  | some (pfx, leaf) =>
    let root := p.headD ""
    if root == "session" && (leaf == "agenda" || leaf == "session_timestamp") then
      updateAtPath st pfx (fun n => setK n leaf (.vstr value))
    else if genDomMem root && (leaf == "existing_plan" || leaf == "progress" || leaf == "barrier") then
      updateAtPath st pfx (fun n => setK n leaf (.vstr value))
    else if genDomMem root && p.length == 3 && p.get? 1 == some "goal_set" && genGoalKeyMem leaf then
      updateAtPath st pfx (fun n => setK n leaf (.vstr value))
    else
      updateAtPath st pfx (fun n => n)

/-- Embedding of generator.py `apply_deltas`: normalize the incoming state,
then fold the validated deltas over it. -/
def genApplyDeltas (state : Option Val) (deltas : List (List String × String)) :
    Option PyDict :=
  (genEnsureFixedStateShape state).map
    (fun st => deltas.foldl (fun acc pv => genApplyOne acc pv.1 pv.2) st)

/-- Acceptance predicate of generator.py `_validate_and_filter_deltas`:
`session` with one of its two leaves at depth 2; a domain with a leaf in
`ALLOWED_LEAVES[root]` (which contains `goal_set`) at depth 2; a domain's
`goal_set` with a Goal Key at depth 3. -/
def genAccepts : List String → Bool
  | [root, l1] =>
    (root == "session" && (l1 == "session_timestamp" || l1 == "agenda")) ||
    (genDomMem root &&
      (l1 == "existing_plan" || l1 == "progress" || l1 == "barrier" || l1 == "goal_set"))
  | [root, l1, l2] => genDomMem root && l1 == "goal_set" && genGoalKeyMem l2
  | _ => false

/-- Embedding of generator.py `_validate_and_filter_deltas`: keep, in order,
exactly the deltas whose path is accepted. -/
def genValidateAndFilterDeltas :
    List (List String × String) → List (List String × String)
  | [] => []
  | (p, v) :: rest =>
    if genAccepts p then (p, v) :: genValidateAndFilterDeltas rest
    else genValidateAndFilterDeltas rest

-- Embedding of the prompt_helper.py schema variant.

/-- Domain Set of prompt_helper.py, in the fixed iteration order used by this
embedding. -/
def phDomains : List String := ["activity", "nutrition", "sleep", "tracking"]

/-- Goal Key Set of prompt_helper.py (note `Measure`, not `Measurable`). -/
def phGoalKeys : List String :=
  ["Specific", "Measure", "Attainable", "Reward", "Timeframe"]

def phDomMem (s : String) : Bool := phDomains.contains s

def phGoalKeyMem (s : String) : Bool := phGoalKeys.contains s

/-- Default agenda text installed by prompt_helper.py's
`ensure_fixed_state_shape`. -/
def phAgendaDefault : String :=
  "Choose one domain to focus on: activity, meal/nutrition, or tracking habits"

/-- Embedding of prompt_helper.py `_ensure_domain`: default `fact`,
`goal_set` (with every Goal Key defaulted to `"None"`), `barrier`. -/
def phEnsureDomain (d : Option Val) : Option PyDict :=
  match dictOrEmpty d with
  | none => none
  | some d0 =>
    let d1 := setDefault d0 "fact" (.vstr "None")
    let d2 := setDefault d1 "goal_set" (.vdict [])
    match lookupK d2 "goal_set" with
    | some (.vdict g) =>
      let g1 := phGoalKeys.foldl (fun acc k => setDefault acc k (.vstr "None")) g
      let d3 := setK d2 "goal_set" (.vdict g1)
      some (setDefault d3 "barrier" (.vstr "None"))
    | _ => none

/-- Loop over the domains of prompt_helper.py's Shape Normalizer. -/
def phEnsureDomains : PyDict → List String → Option PyDict
  | st, [] => some st
  | st, d :: ds =>
    match phEnsureDomain (lookupK st d) with
    | some dd => phEnsureDomains (setK st d (.vdict dd)) ds
    | none => none

/-- Embedding of prompt_helper.py `ensure_fixed_state_shape`: defaults `week`,
`day`, `patient`, `status`, `session` (with `agenda` only), then every
domain. -/
def phEnsureFixedStateShape (state : Option Val) : Option PyDict :=
  match dictOrEmpty state with
  | none => none
  | some st0 =>
    let st1 := setDefault st0 "week" (.vint 1)
    let st2 := setDefault st1 "day" (.vint 1)
    let st3 := setDefault st2 "patient" (.vdict [])
    let st4 := setDefault st3 "status" (.vdict [])
    let st5 := setDefault st4 "session" (.vdict [])
    match lookupK st5 "session" with
    | some (.vdict s) =>
      let s1 := setDefault s "agenda" (.vstr phAgendaDefault)
      let st6 := setK st5 "session" (.vdict s1)
      phEnsureDomains st6 phDomains
    | _ => none

/-- Embedding of one iteration of prompt_helper.py `apply_deltas`' loop:
`session.agenda` is overwritten; a domain leaf named `recording` or `barrier`
is merged with `_append_text` (cap 1000); a `goal_set` Goal Key at depth 3 is
merged with `_append_text` (cap 500); every other path shape writes nothing
(the descent's created dicts remain). -/
def phApplyOne (st : PyDict) (p : List String) (value : String) : PyDict :=
  match splitLast p with
  | none => st
  | some (pfx, leaf) =>
    let root := p.headD ""
    if root == "session" && leaf == "agenda" then
      updateAtPath st pfx (fun n => setK n leaf (.vstr value))
    else if phDomMem root && (leaf == "recording" || leaf == "barrier") then
      updateAtPath st pfx
        (fun n => setK n leaf (appendText (lookupK n leaf) value "; " (some 1000)))
    else if phDomMem root && p.length == 3 && p.get? 1 == some "goal_set" && phGoalKeyMem leaf then
      updateAtPath st pfx
        (fun n => setK n leaf (appendText (lookupK n leaf) value "; " (some 500)))
    else
      updateAtPath st pfx (fun n => n)

/-- Embedding of prompt_helper.py `apply_deltas`. -/
def phApplyDeltas (state : Option Val) (deltas : List (List String × String)) :
    Option PyDict :=
  (phEnsureFixedStateShape state).map
    (fun st => deltas.foldl (fun acc pv => phApplyOne acc pv.1 pv.2) st)

/-- Acceptance predicate of prompt_helper.py `_validate_and_filter_deltas`:
`session.agenda` at depth 2; a domain with a leaf in `ALLOWED_LEAVES[root]`
(`fact`, `goal_set`, `barrier`) at depth 2; a domain's `goal_set` with a Goal
Key at depth 3. -/
def phAccepts : List String → Bool
  | [root, l1] =>
    (root == "session" && l1 == "agenda") ||
    (phDomMem root && (l1 == "fact" || l1 == "goal_set" || l1 == "barrier"))
  | [root, l1, l2] => phDomMem root && l1 == "goal_set" && phGoalKeyMem l2
  | _ => false

/-- Embedding of prompt_helper.py `_validate_and_filter_deltas`. -/
def phValidateAndFilterDeltas :
    List (List String × String) → List (List String × String)
  | [] => []
  | (p, v) :: rest =>
    if phAccepts p then (p, v) :: phValidateAndFilterDeltas rest
    else phValidateAndFilterDeltas rest

/-- Projection used by concrete checks: the string found at a path of nested
dicts, if the value there is a string. -/
def strAtPath (t : Option PyDict) (p : List String) : Option String :=
  match t, p with
  | some tr, [k] =>
    match lookupK tr k with
    | some (.vstr s) => some s
    | _ => none
  | some tr, k :: ks =>
    match lookupK tr k with
    | some (.vdict sub) => strAtPath (some sub) ks
    | _ => none
  | _, _ => none

-- Support lemmas for the append merge policy.

/-- Every character a head position can show is non-whitespace. -/
def headNotWs (l : List Char) : Prop :=
  ∀ c, l.head? = some c → isPySpace c = false

/-- Every character the last position can show is non-whitespace. -/
def lastNotWs (l : List Char) : Prop :=
  ∀ c, l.getLast? = some c → isPySpace c = false

theorem dropWhile_eq_self_of_headNotWs (p : Char → Bool) (l : List Char)
    (h : ∀ c, l.head? = some c → p c = false) : l.dropWhile p = l := by
  cases l with
  | nil => rfl
  | cons c t => simp [List.dropWhile, h c rfl]

theorem head?_dropWhile_not (p : Char → Bool) (l : List Char) :
    ∀ c, (l.dropWhile p).head? = some c → p c = false := by
  induction l with
  | nil => intro c h; simp [List.dropWhile] at h
  | cons a t ih =>
    intro c h
    by_cases ha : p a
    · exact ih c (by simpa [List.dropWhile, ha] using h)
    · simp [List.dropWhile, ha] at h
      subst h
      simpa using ha

theorem pyStripL_eq_self (l : List Char) (h1 : headNotWs l) (h2 : lastNotWs l) :
    pyStripL l = l := by
  unfold pyStripL
  rw [dropWhile_eq_self_of_headNotWs isPySpace l h1]
  rw [dropWhile_eq_self_of_headNotWs isPySpace l.reverse
      (fun c hc => h2 c (by simpa [List.head?_reverse] using hc))]
  simp

theorem getLast?_dropWhile_of_ne_nil (p : Char → Bool) (l : List Char)
    (h : l.dropWhile p ≠ []) : (l.dropWhile p).getLast? = l.getLast? := by
  obtain ⟨pre, hpre⟩ := List.dropWhile_suffix (l := l) p
  conv_rhs => rw [← hpre]
  exact (List.getLast?_append_of_ne_nil _ h).symm

theorem headNotWs_pyStripL (l : List Char) : headNotWs (pyStripL l) := by
  intro c hc
  unfold pyStripL at hc
  rw [List.head?_reverse] at hc
  by_cases hne : ((l.dropWhile isPySpace).reverse.dropWhile isPySpace) = []
  · simp [hne] at hc
  · rw [getLast?_dropWhile_of_ne_nil isPySpace _ hne] at hc
    rw [List.getLast?_reverse] at hc
    exact head?_dropWhile_not isPySpace l c hc

theorem lastNotWs_pyStripL (l : List Char) : lastNotWs (pyStripL l) := by
  intro c hc
  unfold pyStripL at hc
  rw [List.getLast?_reverse] at hc
  exact head?_dropWhile_not isPySpace _ c hc

theorem pyStripL_idem (l : List Char) : pyStripL (pyStripL l) = pyStripL l :=
  pyStripL_eq_self _ (headNotWs_pyStripL l) (lastNotWs_pyStripL l)

theorem pyStrip_idem (s : String) : pyStrip (pyStrip s) = pyStrip s := by
  simp [pyStrip, pyStripL_idem]

theorem splitSepsAux_no_sep_false (l : List Char) (acc : List Char)
    (h : ∀ c ∈ l, isSepChar c = false) :
    splitSepsAux l acc false = [acc.reverse ++ l] := by
  induction l generalizing acc with
  | nil => simp [splitSepsAux]
  | cons c t ih =>
    have hc : isSepChar c = false := h c (by simp)
    simp only [splitSepsAux]
    rw [if_neg (by simp), if_neg (by simp [hc])]
    rw [ih (c :: acc) (fun d hd => h d (by simp [hd]))]
    simp

theorem splitSepsAux_no_sep_true (l : List Char) (acc : List Char)
    (h : ∀ c ∈ l, isSepChar c = false) (hh : headNotWs l) :
    splitSepsAux l acc true = [acc.reverse ++ l] := by
  cases l with
  | nil => simp [splitSepsAux]
  | cons c t =>
    have hc : isSepChar c = false := h c (by simp)
    have hw : isPySpace c = false := hh c rfl
    simp only [splitSepsAux]
    rw [if_neg (by simp [hw]), if_neg (by simp [hc])]
    rw [splitSepsAux_no_sep_false t (c :: acc) (fun d hd => h d (by simp [hd]))]
    simp

/-- The token extraction applied to each raw `re.split` piece. -/
def tokOf (t : List Char) : Option (List Char) :=
  let ts := pyStripL t
  if ts.isEmpty then none else some (ts.map Char.toLower)

theorem tokensOfL_eq (l : List Char) :
    tokensOfL l = (splitSepsL l).filterMap tokOf := rfl

theorem sep_not_ws (c : Char) (h : isSepChar c = true) : isPySpace c = false := by
  simp [isSepChar] at h
  rcases h with ((h | h) | h) | h <;> subst h <;> decide

theorem mem_filterMap_cons {f : List Char → Option (List Char)}
    {x y : List Char} {L : List (List Char)} (h : x ∈ L.filterMap f) :
    x ∈ (y :: L).filterMap f := by
  cases hy : f y <;> simp [List.filterMap_cons, hy, h]

/-- Core membership fact behind dedup idempotence: after a separator character
and a single space, a separator-free stripped nonempty text `n` appears
(lowercased) among the tokens of the whole. -/
theorem mem_tokens_append (n : List Char)
    (hsep : ∀ c ∈ n, isSepChar c = false)
    (hstr : pyStripL n = n) (hne : n ≠ []) :
    ∀ (a acc : List Char) (af : Bool) (c : Char), isSepChar c = true →
      n.map Char.toLower ∈ (splitSepsAux (a ++ c :: ' ' :: n) acc af).filterMap tokOf := by
  have hheadn : headNotWs n := by rw [← hstr]; exact headNotWs_pyStripL n
  have hbase : ∀ (acc : List Char) (af : Bool) (c : Char), isSepChar c = true →
      n.map Char.toLower ∈ (splitSepsAux (c :: ' ' :: n) acc af).filterMap tokOf := by
    intro acc af c hc
    have hwc : isPySpace c = false := sep_not_ws c hc
    have h0 : splitSepsAux (c :: ' ' :: n) acc af =
        acc.reverse :: splitSepsAux (' ' :: n) [] true := by
      rw [splitSepsAux]
      rw [if_neg (by simp [hwc]), if_pos (by simp [hc])]
    have h1 : splitSepsAux (' ' :: n) ([] : List Char) true = splitSepsAux n [] true := by
      rw [splitSepsAux]
      rw [if_pos (by simp [isPySpace])]
    rw [h0, h1, splitSepsAux_no_sep_true n [] hsep hheadn]
    apply mem_filterMap_cons
    have htok : tokOf n = some (n.map Char.toLower) := by
      simp [tokOf, hstr, List.isEmpty_iff, hne]
    simp [List.filterMap_cons, htok]
  intro a
  induction a with
  | nil => intro acc af c hc; simpa using hbase acc af c hc
  | cons ch a2 ih =>
    intro acc af c hc
    rw [List.cons_append, splitSepsAux]
    by_cases h1 : (af = true ∧ isPySpace ch = true)
    · rw [if_pos h1]
      exact ih acc true c hc
    · rw [if_neg h1]
      by_cases h2 : isSepChar ch
      · rw [if_pos (by simp [h2])]
        apply mem_filterMap_cons
        exact ih [] true c hc
      · rw [if_neg (by simp [h2])]
        exact ih (ch :: acc) false c hc

/-- String length of a string value, zero on any other value. -/
def valStrLen : Val → Nat
  | .vstr s => s.length
  | _ => 0

theorem string_mk_data (s : String) : String.mk s.data = s := rfl

theorem data_pyStrip (s : String) : (pyStrip s).data = pyStripL s.data := rfl

theorem pyStrip_eq_self_of (s : String) (h : pyStripL s.data = s.data) :
    pyStrip s = s := by
  unfold pyStrip
  rw [h]

theorem contains_of_mem_tok {L : List (List Char)} {x : List Char}
    (h : x ∈ L) : L.contains x = true := by
  simpa [List.elem_iff] using h

/-- A stripped string containing a space is never sentinel-empty. -/
theorem isNoneLike_false_of_space (s : String)
    (h1 : pyStripL s.data = s.data) (h2 : ' ' ∈ s.data) :
    isNoneLike (some (.vstr s)) = false := by
  have hstrip : pyStrip s = s := pyStrip_eq_self_of s h1
  have hlow : ' ' ∈ (pyLower s).data := by
    simp only [pyLower]
    exact List.mem_map.mpr ⟨' ', h2, rfl⟩
  have hne : s ≠ "" := by
    intro h
    subst h
    simp at h2
  simp only [isNoneLike, pyStr, hstrip]
  have e1 : (s == "") = false := by simp [hne]
  have e2 : (pyLower s == "none") = false := by
    apply beq_eq_false_iff_ne.mpr
    intro h
    rw [h] at hlow
    simp at hlow
  have e3 : (pyLower s == "null") = false := by
    apply beq_eq_false_iff_ne.mpr
    intro h
    rw [h] at hlow
    simp at hlow
  have e4 : (pyLower s == "n/a") = false := by
    apply beq_eq_false_iff_ne.mpr
    intro h
    rw [h] at hlow
    simp at hlow
  simp [e1, e2, e3, e4]

/-- Token list of a separator-free stripped nonempty text: the text itself,
lowercased. -/
theorem tokensOfL_single (l : List Char)
    (hsep : ∀ c ∈ l, isSepChar c = false)
    (hstr : pyStripL l = l) (hne : l ≠ []) :
    tokensOfL l = [l.map Char.toLower] := by
  rw [tokensOfL_eq]
  unfold splitSepsL
  rw [splitSepsAux_no_sep_false l [] hsep]
  simp [tokOf, hstr, List.isEmpty_iff, hne, List.filterMap_cons]

theorem appendText_cap (existing : Option Val) (v : String) (L : Nat)
    (hlen : valStrLen (appendText existing v "; " none) ≤ L) :
    appendText existing v "; " (some L) = appendText existing v "; " none := by
  by_cases hn : (pyStrip v == "")
  · simp [appendText, hn]
  · simp only [appendText, hn, Bool.false_eq_true, if_false, valStrLen] at hlen ⊢
    have hgt : ¬ ((appendCore existing (pyStrip v) "; ").length > L) := by omega
    simp [hgt]

/-- Concatenating a stripped nonempty front, an arbitrary middle and a
stripped nonempty tail is stripped again. -/
theorem pyStripL_append_three (a mid b : List Char)
    (ha : pyStripL a = a) (hane : a ≠ [])
    (hb : pyStripL b = b) (hbne : b ≠ []) :
    pyStripL (a ++ (mid ++ b)) = a ++ (mid ++ b) := by
  apply pyStripL_eq_self
  · intro c hc
    have hha : headNotWs a := by rw [← ha]; exact headNotWs_pyStripL a
    cases a with
    | nil => exact absurd rfl hane
    | cons x t =>
      simp only [List.cons_append, List.head?_cons] at hc
      exact hha c (by simpa using hc)
  · intro c hc
    have hlb : lastNotWs b := by rw [← hb]; exact lastNotWs_pyStripL b
    rw [← List.append_assoc] at hc
    rw [List.getLast?_append_of_ne_nil _ hbne] at hc
    exact hlb c hc

theorem data_append3 (a b c : String) :
    (a ++ b ++ c).data = a.data ++ (b.data ++ c.data) := by
  simp [String.data_append]

theorem ne_nil_data (s : String) (h : s ≠ "") : s.data ≠ [] := by
  intro hd
  apply h
  have : String.mk s.data = String.mk [] := by rw [hd]
  simpa [string_mk_data] using this

/-- The non-sentinel test is preserved by restripping: a string equal to its
own strip that fails the sentinel test keeps failing it. -/
theorem isNoneLike_vstr_eq (t : String) (hst : pyStrip t = t)
    (h : t ≠ "" ∧ pyLower t ≠ "none" ∧ pyLower t ≠ "null" ∧ pyLower t ≠ "n/a") :
    isNoneLike (some (.vstr t)) = false := by
  simp [isNoneLike, pyStr, hst, h.1, h.2.1, h.2.2.1, h.2.2.2]

theorem pyStr_vstr (s : String) : pyStr (.vstr s) = s := rfl

/-- Duplicate-hit branch of `_append_text`: when the (stripped) existing text
already lists the new value among its tokens, the existing text is returned
unchanged. -/
theorem appendCore_dedup (t n : String)
    (hnl : isNoneLike (some (.vstr t)) = false)
    (hts : pyStrip t = t)
    (hcon : (tokensOfL t.data).contains (pyLower n).data = true) :
    appendCore (some (.vstr t)) n "; " = t := by
  unfold appendCore
  rw [hnl]
  simp only [Bool.false_eq_true, if_false, pyStr_vstr, hts, hcon, if_true]

/-- Core idempotence of `_append_text` for a stripped separator-free new
value with no length cap: applying it a second time on its own result
returns the result unchanged. -/
theorem appendCore_idem (existing : Option Val) (n : String)
    (hsep : ∀ c ∈ n.data, isSepChar c = false)
    (hstr : pyStripL n.data = n.data) (hne : n ≠ "") :
    appendCore (some (.vstr (appendCore existing n "; "))) n "; " =
      appendCore existing n "; " := by
  have hnd : n.data ≠ [] := ne_nil_data n hne
  have hsn : pyStrip n = n := pyStrip_eq_self_of n hstr
  have htokn : tokensOfL n.data = [n.data.map Char.toLower] :=
    tokensOfL_single n.data hsep hstr hnd
  have hconn : (tokensOfL n.data).contains (pyLower n).data = true := by
    rw [htokn]
    exact contains_of_mem_tok (by simp [pyLower])
  by_cases hnl : isNoneLike existing
  · have hrn : appendCore existing n "; " = n := by simp [appendCore, hnl]
    rw [hrn]
    by_cases h2 : isNoneLike (some (.vstr n))
    · simp [appendCore, h2]
    · exact appendCore_dedup n n (by simpa using h2) hsn hconn
  · cases existing with
    | none => simp [isNoneLike] at hnl
    | some w =>
      have hnl' : isNoneLike (some w) = false := by simpa using hnl
      have h4 : pyStrip (pyStr w) ≠ "" ∧ pyLower (pyStrip (pyStr w)) ≠ "none" ∧
          pyLower (pyStrip (pyStr w)) ≠ "null" ∧
          pyLower (pyStrip (pyStr w)) ≠ "n/a" := by
        have := hnl'
        simp only [isNoneLike] at this
        simp only [Bool.or_eq_false_iff] at this
        refine ⟨?_, ?_, ?_, ?_⟩ <;> simp_all [beq_eq_false_iff_ne]
      have hexstr : pyStripL (pyStrip (pyStr w)).data = (pyStrip (pyStr w)).data := by
        rw [data_pyStrip]
        exact pyStripL_idem _
      have hexs : pyStrip (pyStrip (pyStr w)) = pyStrip (pyStr w) :=
        pyStrip_eq_self_of _ hexstr
      have hnlx : isNoneLike (some (.vstr (pyStrip (pyStr w)))) = false :=
        isNoneLike_vstr_eq _ hexs h4
      by_cases hc : (tokensOfL (pyStrip (pyStr w)).data).contains (pyLower n).data
      · have hrx : appendCore (some w) n "; " = pyStrip (pyStr w) := by
          simp only [appendCore, hnl', Bool.false_eq_true, if_false, hc, if_true]
        rw [hrx]
        exact appendCore_dedup _ n hnlx hexs hc
      · have hcf : (tokensOfL (pyStrip (pyStr w)).data).contains (pyLower n).data = false := by
          simpa using hc
        have hexne : (pyStrip (pyStr w)).data ≠ [] := ne_nil_data _ h4.1
        by_cases hend : ((pyStrip (pyStr w)) != "" && isSepChar (lastCharD (pyStrip (pyStr w))))
        · have hrx : appendCore (some w) n "; " = pyStrip (pyStr w) ++ " " ++ n := by
            simp only [appendCore, hnl', Bool.false_eq_true, if_false, hcf, hend, if_true]
          rw [hrx]
          have hdata : (pyStrip (pyStr w) ++ " " ++ n).data =
              (pyStrip (pyStr w)).data ++ ([' '] ++ n.data) := by
            simp [String.data_append]
          have hrs : pyStripL (pyStrip (pyStr w) ++ " " ++ n).data =
              (pyStrip (pyStr w) ++ " " ++ n).data := by
            rw [hdata]
            exact pyStripL_append_three _ _ _ hexstr hexne hstr hnd
          have hsp : ' ' ∈ (pyStrip (pyStr w) ++ " " ++ n).data := by
            rw [hdata]; simp
          have hnlr : isNoneLike (some (.vstr (pyStrip (pyStr w) ++ " " ++ n))) = false :=
            isNoneLike_false_of_space _ hrs hsp
          obtain ⟨cl, hcl⟩ : ∃ cl, (pyStrip (pyStr w)).data.getLast? = some cl := by
            cases hx : (pyStrip (pyStr w)).data with
            | nil => exact absurd hx hexne
            | cons a t => exact ⟨(a :: t).getLast (by simp), List.getLast?_eq_getLast _ _⟩
          have hclsep : isSepChar cl = true := by
            have hb := (Bool.and_eq_true _ _).mp hend
            have h2 := hb.2
            simp only [lastCharD] at h2
            have hgl : (pyStrip (pyStr w)).data.getLastD ' ' = cl := by
              simp [List.getLastD_eq_getLast?, hcl]
            rwa [hgl] at h2
          have hsplit : (pyStrip (pyStr w)).data =
              (pyStrip (pyStr w)).data.dropLast ++ [cl] := by
            conv_lhs => rw [← List.dropLast_append_getLast? cl hcl]
          have hmem : n.data.map Char.toLower ∈
              (splitSepsAux ((pyStrip (pyStr w) ++ " " ++ n).data) [] false).filterMap tokOf := by
            rw [hdata]
            have hshape : (pyStrip (pyStr w)).data ++ ([' '] ++ n.data) =
                (pyStrip (pyStr w)).data.dropLast ++ (cl :: ' ' :: n.data) := by
              conv_lhs => rw [hsplit]
              simp
            rw [hshape]
            exact mem_tokens_append n.data hsep hstr hnd _ [] false cl hclsep
          have hconr : (tokensOfL (pyStrip (pyStr w) ++ " " ++ n).data).contains
              (pyLower n).data = true := by
            rw [tokensOfL_eq]
            exact contains_of_mem_tok hmem
          have hrs' : pyStrip (pyStrip (pyStr w) ++ " " ++ n) =
              pyStrip (pyStr w) ++ " " ++ n := pyStrip_eq_self_of _ hrs
          exact appendCore_dedup _ n hnlr hrs' hconr
        · have hrx : appendCore (some w) n "; " = pyStrip (pyStr w) ++ "; " ++ n := by
            simp only [appendCore, hnl', Bool.false_eq_true, if_false, hcf]
            simp only [hend]
            simp
          rw [hrx]
          have hdata : (pyStrip (pyStr w) ++ "; " ++ n).data =
              (pyStrip (pyStr w)).data ++ ([';', ' '] ++ n.data) := by
            simp [String.data_append]
          have hrs : pyStripL (pyStrip (pyStr w) ++ "; " ++ n).data =
              (pyStrip (pyStr w) ++ "; " ++ n).data := by
            rw [hdata]
            exact pyStripL_append_three _ _ _ hexstr hexne hstr hnd
          have hsp : ' ' ∈ (pyStrip (pyStr w) ++ "; " ++ n).data := by
            rw [hdata]; simp
          have hnlr : isNoneLike (some (.vstr (pyStrip (pyStr w) ++ "; " ++ n))) = false :=
            isNoneLike_false_of_space _ hrs hsp
          have hmem : n.data.map Char.toLower ∈
              (splitSepsAux ((pyStrip (pyStr w) ++ "; " ++ n).data) [] false).filterMap tokOf := by
            rw [hdata]
            have hshape : (pyStrip (pyStr w)).data ++ ([';', ' '] ++ n.data) =
                (pyStrip (pyStr w)).data ++ (';' :: ' ' :: n.data) := by simp
            rw [hshape]
            exact mem_tokens_append n.data hsep hstr hnd _ [] false ';' (by decide)
          have hconr : (tokensOfL (pyStrip (pyStr w) ++ "; " ++ n).data).contains
              (pyLower n).data = true := by
            rw [tokensOfL_eq]
            exact contains_of_mem_tok hmem
          have hrs' : pyStrip (pyStrip (pyStr w) ++ "; " ++ n) =
              pyStrip (pyStr w) ++ "; " ++ n := pyStrip_eq_self_of _ hrs
          exact appendCore_dedup _ n hnlr hrs' hconr

theorem appendText_idem_none (existing : Option Val) (v : String)
    (hsep : ∀ c ∈ (pyStrip v).data, isSepChar c = false) :
    appendText (some (appendText existing v "; " none)) v "; " none =
      appendText existing v "; " none := by
  by_cases hn : (pyStrip v == "")
  · simp only [appendText, hn, if_true]
    cases existing with
    | none => simp
    | some w =>
      by_cases ht : pyTruthy w
      · simp [ht]
      · simp [ht]
  · have hne : pyStrip v ≠ "" := by simpa using hn
    have hstr : pyStripL (pyStrip v).data = (pyStrip v).data := by
      rw [data_pyStrip]
      exact pyStripL_idem _
    simp only [appendText, hn, Bool.false_eq_true, if_false]
    rw [appendCore_idem existing (pyStrip v) hsep hstr hne]

/-- Dedup idempotence of `_append_text`, in the form that actually holds on
the code: the new value must contain no separator character after stripping,
and the first append must fit under the length cap (so that no truncation
happens).  Then appending the same value a second time returns the first
result unchanged. -/
theorem appendText_idem (existing : Option Val) (v : String) (m : Option Nat)
    (hsep : ∀ c ∈ (pyStrip v).data, isSepChar c = false)
    (hcap : ∀ L, m = some L → valStrLen (appendText existing v "; " none) ≤ L) :
    appendText (some (appendText existing v "; " m)) v "; " m =
      appendText existing v "; " m := by
  cases m with
  | none => exact appendText_idem_none existing v hsep
  | some L =>
    have h1 : appendText existing v "; " (some L) = appendText existing v "; " none :=
      appendText_cap _ _ _ (hcap L rfl)
    rw [h1]
    have h2 := appendText_idem_none existing v hsep
    have h3 : valStrLen (appendText (some (appendText existing v "; " none)) v "; " none) ≤ L := by
      rw [h2]; exact hcap L rfl
    rw [appendText_cap _ _ _ h3, h2]

-- Well-formedness and completeness of the generator Shape Normalizer.

/-- Monotonicity of key membership under `setdefault`. -/
theorem keyMem_setDefault_of_mem (l : PyDict) (k k' : String) (v : Val)
    (h : keyMem l k = true) : keyMem (setDefault l k' v) k = true := by
  by_cases hk : k' = k
  · subst hk; exact keyMem_setDefault_self l k' v
  · unfold keyMem
    rw [lookupK_setDefault_ne l k' k v (Ne.symm hk)]
    exact h

theorem keyMem_setK_of_mem (l : PyDict) (k k' : String) (v : Val)
    (h : keyMem l k = true) : keyMem (setK l k' v) k = true := by
  by_cases hk : k' = k
  · subst hk
    unfold keyMem
    rw [lookupK_setK_self]
    rfl
  · unfold keyMem
    rw [lookupK_setK_ne l k' k v (Ne.symm hk)]
    exact h

theorem keyMem_foldl_setDefault_mono (v : Val) (ks : List String) :
    ∀ (g : PyDict) (k : String), keyMem g k = true →
      keyMem (ks.foldl (fun acc k' => setDefault acc k' v) g) k = true := by
  induction ks with
  | nil => intro g k h; simpa using h
  | cons k0 rest ih =>
    intro g k h
    simp only [List.foldl_cons]
    exact ih (setDefault g k0 v) k (keyMem_setDefault_of_mem g k k0 v h)

theorem keyMem_foldl_setDefault (v : Val) (ks : List String) :
    ∀ (g : PyDict) (k : String), k ∈ ks →
      keyMem (ks.foldl (fun acc k' => setDefault acc k' v) g) k = true := by
  induction ks with
  | nil => intro g k h; simp at h
  | cons k0 rest ih =>
    intro g k h
    simp only [List.foldl_cons]
    rcases List.mem_cons.mp h with h | h
    · subst h
      exact keyMem_foldl_setDefault_mono v rest (setDefault g k v) k
        (keyMem_setDefault_self g k v)
    · exact ih (setDefault g k0 v) k h

theorem foldl_setDefault_of_all_mem (v : Val) (ks : List String) :
    ∀ (g : PyDict), (∀ k ∈ ks, keyMem g k = true) →
      ks.foldl (fun acc k' => setDefault acc k' v) g = g := by
  induction ks with
  | nil => intro g _; rfl
  | cons k0 rest ih =>
    intro g h
    simp only [List.foldl_cons]
    rw [setDefault_of_mem g k0 v (h k0 (by simp))]
    exact ih g (fun k hk => h k (by simp [hk]))

/-- Completeness of one generator domain entry: every fixed leaf present and
a dict `goal_set` holding every Goal Key. -/
def genDomComplete (d : PyDict) : Bool :=
  keyMem d "existing_plan" && keyMem d "progress" && keyMem d "barrier" &&
  (match lookupK d "goal_set" with
   | some (.vdict g) => genGoalKeys.all (fun k => keyMem g k)
   | _ => false)

/-- Well-formedness of a value sitting at a domain key, as far as
`_ensure_domain` can repair it without raising: absent, falsy, or a dict
whose `goal_set` (when present) is a dict. -/
def genDomWF (v : Option Val) : Bool :=
  match v with
  | none => true
  | some x =>
    if pyTruthy x then
      match x with
      | .vdict d =>
        (match lookupK d "goal_set" with
         | none => true
         | some (.vdict _) => true
         | some _ => false)
      | _ => false
    else true

theorem genEnsureDomain_complete (v : Option Val) (dd : PyDict)
    (h : genEnsureDomain v = some dd) : genDomComplete dd = true := by
  unfold genEnsureDomain at h
  cases hd0 : dictOrEmpty v with
  | none => rw [hd0] at h; simp at h
  | some d0 =>
    rw [hd0] at h
    simp only at h
    cases hgs : lookupK (setDefault (setDefault (setDefault d0 "existing_plan" (.vstr ""))
        "progress" (.vstr "")) "goal_set" (.vdict [])) "goal_set" with
    | none => rw [hgs] at h; simp at h
    | some gv =>
      cases gv with
      | vdict g =>
        rw [hgs] at h
        simp only [Option.some_inj] at h
        subst h
        unfold genDomComplete
        have h1 : keyMem (setDefault d0 "existing_plan" (.vstr "")) "existing_plan" = true :=
          keyMem_setDefault_self _ _ _
        have h2 : keyMem (setDefault (setDefault d0 "existing_plan" (.vstr ""))
            "progress" (.vstr "")) "progress" = true := keyMem_setDefault_self _ _ _
        have hep : keyMem (setDefault (setK (setDefault (setDefault (setDefault d0
            "existing_plan" (.vstr "")) "progress" (.vstr "")) "goal_set" (.vdict []))
            "goal_set" (.vdict (genGoalKeys.foldl (fun acc k => setDefault acc k (.vstr "")) g)))
            "barrier" (.vstr "")) "existing_plan" = true := by
          apply keyMem_setDefault_of_mem
          apply keyMem_setK_of_mem
          apply keyMem_setDefault_of_mem
          apply keyMem_setDefault_of_mem
          exact h1
        have hpr : keyMem (setDefault (setK (setDefault (setDefault (setDefault d0
            "existing_plan" (.vstr "")) "progress" (.vstr "")) "goal_set" (.vdict []))
            "goal_set" (.vdict (genGoalKeys.foldl (fun acc k => setDefault acc k (.vstr "")) g)))
            "barrier" (.vstr "")) "progress" = true := by
          apply keyMem_setDefault_of_mem
          apply keyMem_setK_of_mem
          apply keyMem_setDefault_of_mem
          exact h2
        have hbar : keyMem (setDefault (setK (setDefault (setDefault (setDefault d0
            "existing_plan" (.vstr "")) "progress" (.vstr "")) "goal_set" (.vdict []))
            "goal_set" (.vdict (genGoalKeys.foldl (fun acc k => setDefault acc k (.vstr "")) g)))
            "barrier" (.vstr "")) "barrier" = true := keyMem_setDefault_self _ _ _
        have hgs2 : lookupK (setDefault (setK (setDefault (setDefault (setDefault d0
            "existing_plan" (.vstr "")) "progress" (.vstr "")) "goal_set" (.vdict []))
            "goal_set" (.vdict (genGoalKeys.foldl (fun acc k => setDefault acc k (.vstr "")) g)))
            "barrier" (.vstr "")) "goal_set" =
            some (.vdict (genGoalKeys.foldl (fun acc k => setDefault acc k (.vstr "")) g)) := by
          rw [lookupK_setDefault_ne _ _ _ _ (by decide)]
          exact lookupK_setK_self _ _ _
        rw [hep, hpr, hbar, hgs2]
        simp only [Bool.true_and]
        apply List.all_eq_true.mpr
        intro k hk
        exact keyMem_foldl_setDefault (.vstr "") genGoalKeys g k hk
      | vstr s => rw [hgs] at h; simp at h
      | vint n => rw [hgs] at h; simp at h
      | vnone => rw [hgs] at h; simp at h
      | vlist xs => rw [hgs] at h; simp at h

theorem genEnsureDomain_total (v : Option Val) (h : genDomWF v = true) :
    (genEnsureDomain v).isSome = true := by
  unfold genEnsureDomain
  have hd0 : ∃ d0, dictOrEmpty v = some d0 ∧
      (∀ gv, lookupK d0 "goal_set" = some gv → ∃ g, gv = .vdict g) := by
    unfold genDomWF at h
    cases v with
    | none => exact ⟨[], rfl, by intro gv hgv; simp [lookupK] at hgv⟩
    | some x =>
      by_cases ht : pyTruthy x
      · simp only [ht, if_true] at h
        cases x with
        | vdict d =>
          have h' : (match lookupK d "goal_set" with
              | none => true
              | some (.vdict _) => true
              | some _ => false) = true := h
          refine ⟨d, by simp [dictOrEmpty, ht, pyDictCoerce], ?_⟩
          intro gv hgv
          rw [hgv] at h'
          cases gv with
          | vdict g => exact ⟨g, rfl⟩
          | vstr s => simp at h'
          | vint n => simp at h'
          | vnone => simp at h'
          | vlist xs => simp at h' 
        | vstr s => simp at h
        | vint n => simp at h
        | vnone => simp at h
        | vlist xs => simp at h
      · refine ⟨[], by simp [dictOrEmpty, ht], ?_⟩
        intro gv hgv
        simp [lookupK] at hgv
  obtain ⟨d0, hd0eq, hgswf⟩ := hd0
  rw [hd0eq]
  simp only
  cases hgs : lookupK (setDefault (setDefault (setDefault d0 "existing_plan" (.vstr ""))
      "progress" (.vstr "")) "goal_set" (.vdict [])) "goal_set" with
  | none =>
    exfalso
    have := keyMem_setDefault_self (setDefault (setDefault d0 "existing_plan" (.vstr ""))
      "progress" (.vstr "")) "goal_set" (.vdict [])
    simp [keyMem, hgs] at this
  | some gv =>
    have hsame : lookupK d0 "goal_set" = some gv ∨ gv = .vdict [] := by
      by_cases hm : keyMem (setDefault (setDefault d0 "existing_plan" (.vstr ""))
          "progress" (.vstr "")) "goal_set"
      · left
        rw [setDefault_of_mem _ _ _ hm] at hgs
        rw [lookupK_setDefault_ne _ _ _ _ (by decide),
            lookupK_setDefault_ne _ _ _ _ (by decide)] at hgs
        exact hgs
      · right
        have h2 := lookupK_setDefault_not_mem _ "goal_set" (.vdict [])
          (by simpa using hm)
        rw [hgs] at h2
        exact Option.some_inj.mp h2
    have : ∃ g, gv = Val.vdict g := by
      rcases hsame with hsame | hsame
      · exact hgswf gv hsame
      · exact ⟨[], hsame⟩
    obtain ⟨g, hg⟩ := this
    subst hg
    simp

theorem genEnsureDomains_lookup_ne (ds : List String) :
    ∀ (st t : PyDict), genEnsureDomains st ds = some t →
      ∀ k, k ∉ ds → lookupK t k = lookupK st k := by
  induction ds with
  | nil =>
    intro st t h k _
    simp only [genEnsureDomains, Option.some_inj] at h
    rw [h]
  | cons d0 rest ih =>
    intro st t h k hk
    simp only [genEnsureDomains] at h
    cases hdd : genEnsureDomain (lookupK st d0) with
    | none => rw [hdd] at h; simp at h
    | some dd =>
      rw [hdd] at h
      simp only at h
      have hk0 : k ≠ d0 := fun he => hk (by simp [he])
      have hkr : k ∉ rest := fun he => hk (by simp [he])
      rw [ih _ _ h k hkr]
      exact lookupK_setK_ne st d0 k (.vdict dd) hk0

theorem genEnsureDomains_complete (ds : List String) :
    ∀ (st t : PyDict), genEnsureDomains st ds = some t →
      ∀ d ∈ ds, ∃ dd, lookupK t d = some (.vdict dd) ∧ genDomComplete dd = true := by
  induction ds with
  | nil => intro st t _ d hd; simp at hd
  | cons d0 rest ih =>
    intro st t h d hd
    simp only [genEnsureDomains] at h
    cases hdd : genEnsureDomain (lookupK st d0) with
    | none => rw [hdd] at h; simp at h
    | some dd =>
      rw [hdd] at h
      simp only at h
      by_cases hdr : d ∈ rest
      · exact ih _ _ h d hdr
      · have hd0 : d = d0 := by
          rcases List.mem_cons.mp hd with he | he
          · exact he
          · exact absurd he hdr
        subst hd0
        refine ⟨dd, ?_, genEnsureDomain_complete _ _ hdd⟩
        rw [genEnsureDomains_lookup_ne rest _ _ h d hdr]
        exact lookupK_setK_self st d (.vdict dd)

theorem genEnsureDomains_total (ds : List String) (hnd : ds.Nodup) :
    ∀ (st : PyDict), (∀ d ∈ ds, genDomWF (lookupK st d) = true) →
      (genEnsureDomains st ds).isSome = true := by
  induction ds with
  | nil => intro st _; simp [genEnsureDomains]
  | cons d0 rest ih =>
    intro st h
    simp only [genEnsureDomains]
    have h0 := genEnsureDomain_total (lookupK st d0) (h d0 (by simp))
    cases hdd : genEnsureDomain (lookupK st d0) with
    | none => rw [hdd] at h0; simp at h0
    | some dd =>
      simp only
      apply ih (List.Nodup.of_cons hnd)
      intro d hd
      have hne : d ≠ d0 := by
        intro he
        subst he
        exact (List.nodup_cons.mp hnd).1 hd
      rw [lookupK_setK_ne st d0 d (.vdict dd) hne]
      exact h d (by simp [hd])

theorem genEnsureDomains_keys (ds : List String) (hnd : ds.Nodup) :
    ∀ (st t : PyDict), genEnsureDomains st ds = some t →
      keysOf t = keysOf st ++ ds.filter (fun d => !(keyMem st d)) := by
  induction ds with
  | nil =>
    intro st t h
    simp only [genEnsureDomains, Option.some_inj] at h
    simp [h]
  | cons d0 rest ih =>
    intro st t h
    simp only [genEnsureDomains] at h
    cases hdd : genEnsureDomain (lookupK st d0) with
    | none => rw [hdd] at h; simp at h
    | some dd =>
      rw [hdd] at h
      simp only at h
      have hrest := ih (List.Nodup.of_cons hnd) _ _ h
      have hfil : rest.filter (fun d => !(keyMem (setK st d0 (.vdict dd)) d)) =
          rest.filter (fun d => !(keyMem st d)) := by
        apply List.filter_congr
        intro d hd
        have hne : d ≠ d0 := by
          intro he
          subst he
          exact (List.nodup_cons.mp hnd).1 hd
        unfold keyMem
        rw [lookupK_setK_ne st d0 d (.vdict dd) hne]
      rw [hfil] at hrest
      by_cases hm : keyMem st d0
      · rw [hrest, keysOf_setK_mem st d0 (.vdict dd) hm]
        simp [List.filter_cons, hm]
      · rw [hrest, keysOf_setK_not_mem st d0 (.vdict dd) (by simpa using hm)]
        simp [List.filter_cons, hm]

/-- Well-formedness of the `session` entry: absent or a dict. -/
def genSessionWF (l : PyDict) : Bool :=
  match lookupK l "session" with
  | none => true
  | some (.vdict _) => true
  | some _ => false

/-- Well-formedness of a state value, as far as generator.py's Shape
Normalizer can repair it without raising: absent or falsy (treated as the
empty tree), or a dict whose `session`, domain entries and their `goal_set`
entries are repairable. -/
def genWF (state : Option Val) : Bool :=
  match state with
  | none => true
  | some v =>
    if pyTruthy v then
      match v with
      | .vdict l => genSessionWF l && genDomains.all (fun d => genDomWF (lookupK l d))
      | _ => false
    else true

/-- The dict the normalizer starts from: the input's entries when the input
is a dict, the empty dict otherwise. -/
def topTree : Option Val → PyDict
  | some (.vdict l) => l
  | _ => []

/-- Schema completeness of a generator state tree: `session` is a dict with
both leaves, `allowed_domains` is present, every domain is a complete dict. -/
def SchemaComplete (t : PyDict) : Bool :=
  (match lookupK t "session" with
   | some (.vdict s) => keyMem s "session_timestamp" && keyMem s "agenda"
   | _ => false) &&
  keyMem t "allowed_domains" &&
  genDomains.all (fun d =>
    match lookupK t d with
    | some (.vdict dd) => genDomComplete dd
    | _ => false)

/-- Fixed top-level schema keys, in the order the normalizer appends them. -/
def genTopSchemaKeys : List String :=
  ["session", "allowed_domains", "activity", "nutrition", "sleep"]

theorem genEnsure_dictOrEmpty (st : Option Val) (t : PyDict)
    (h : genEnsureFixedStateShape st = some t) :
    dictOrEmpty st = some (topTree st) := by
  cases st with
  | none => rfl
  | some v =>
    unfold genEnsureFixedStateShape at h
    cases h0 : dictOrEmpty (some v) with
    | none => rw [h0] at h; simp at h
    | some st0 =>
      unfold dictOrEmpty at h0
      by_cases ht : pyTruthy v
      · simp only [ht, if_true] at h0
        cases v with
        | vdict l =>
          simp only [pyDictCoerce, Option.some_inj] at h0
          simp [topTree, h0]
        | vstr s => simp [pyDictCoerce] at h0
        | vint n => simp [pyDictCoerce] at h0
        | vnone => simp [pyDictCoerce] at h0
        | vlist xs => simp [pyDictCoerce] at h0
      · have ht2 : pyTruthy v = false := by simpa using ht
        simp only [ht2, Bool.false_eq_true, if_false, Option.some_inj] at h0
        rw [← h0]
        cases v with
        | vdict l =>
          have : l = [] := by
            simp [pyTruthy] at ht
            simpa [List.isEmpty_iff] using ht
          simp [topTree, this]
        | vstr s => simp [topTree]
        | vint n => simp [topTree]
        | vnone => simp [topTree]
        | vlist xs => simp [topTree]

theorem genEnsure_inv (st : Option Val) (t : PyDict)
    (h : genEnsureFixedStateShape st = some t) :
    ∃ s, lookupK (setDefault (topTree st) "session" (.vdict [])) "session" =
        some (.vdict s) ∧
      genEnsureDomains
        (setDefault (setK (setDefault (topTree st) "session" (.vdict []))
          "session" (.vdict (setDefault (setDefault s "session_timestamp" (.vstr ""))
            "agenda" (.vstr genAgendaDefault))))
          "allowed_domains" allowedDomainsVal) genDomains = some t := by
  have h0 := genEnsure_dictOrEmpty st t h
  unfold genEnsureFixedStateShape at h
  rw [h0] at h
  simp only at h
  cases hs : lookupK (setDefault (topTree st) "session" (.vdict [])) "session" with
  | none => rw [hs] at h; simp at h
  | some sv =>
    rw [hs] at h
    cases sv with
    | vdict s => exact ⟨s, rfl, h⟩
    | vstr s => simp at h
    | vint n => simp at h
    | vnone => simp at h
    | vlist xs => simp at h

theorem genEnsure_success_complete (st : Option Val) (t : PyDict)
    (h : genEnsureFixedStateShape st = some t) : SchemaComplete t = true := by
  obtain ⟨s, hs, hdoms⟩ := genEnsure_inv st t h
  unfold SchemaComplete
  have hsesslk : lookupK t "session" =
      some (.vdict (setDefault (setDefault s "session_timestamp" (.vstr ""))
        "agenda" (.vstr genAgendaDefault))) := by
    rw [genEnsureDomains_lookup_ne genDomains _ _ hdoms "session" (by decide)]
    rw [lookupK_setDefault_ne _ _ _ _ (by decide)]
    exact lookupK_setK_self _ _ _
  have hts : keyMem (setDefault (setDefault s "session_timestamp" (.vstr ""))
      "agenda" (.vstr genAgendaDefault)) "session_timestamp" = true :=
    keyMem_setDefault_of_mem _ _ _ _ (keyMem_setDefault_self _ _ _)
  have hag : keyMem (setDefault (setDefault s "session_timestamp" (.vstr ""))
      "agenda" (.vstr genAgendaDefault)) "agenda" = true :=
    keyMem_setDefault_self _ _ _
  have had : keyMem t "allowed_domains" = true := by
    unfold keyMem
    rw [genEnsureDomains_lookup_ne genDomains _ _ hdoms "allowed_domains" (by decide)]
    exact keyMem_setDefault_self _ _ _
  rw [hsesslk]
  simp only [hts, hag, had, Bool.and_true, Bool.true_and]
  apply List.all_eq_true.mpr
  intro d hd
  obtain ⟨dd, hlk, hcomp⟩ := genEnsureDomains_complete genDomains _ _ hdoms d hd
  rw [hlk]
  exact hcomp

theorem genEnsure_preserves_unknown (st : Option Val) (t : PyDict)
    (h : genEnsureFixedStateShape st = some t) :
    ∀ k, k ∉ genTopSchemaKeys → lookupK t k = lookupK (topTree st) k := by
  obtain ⟨s, hs, hdoms⟩ := genEnsure_inv st t h
  intro k hk
  have h1 : k ≠ "session" := fun he => hk (by simp [genTopSchemaKeys, he])
  have h2 : k ≠ "allowed_domains" := fun he => hk (by simp [genTopSchemaKeys, he])
  have h3 : k ∉ genDomains := by
    intro he
    apply hk
    simp only [genDomains] at he
    simp only [genTopSchemaKeys]
    simp at he ⊢
    tauto
  rw [genEnsureDomains_lookup_ne genDomains _ _ hdoms k h3]
  rw [lookupK_setDefault_ne _ _ _ _ h2]
  rw [lookupK_setK_ne _ _ _ _ h1]
  rw [lookupK_setDefault_ne _ _ _ _ h1]

theorem genEnsure_keys (st : Option Val) (t : PyDict)
    (h : genEnsureFixedStateShape st = some t) :
    keysOf t = keysOf (topTree st) ++
      genTopSchemaKeys.filter (fun k => !(keyMem (topTree st) k)) := by
  obtain ⟨s, hs, hdoms⟩ := genEnsure_inv st t h
  have hk1 : keysOf (setDefault (topTree st) "session" (.vdict [])) =
      keysOf (topTree st) ++
        (if keyMem (topTree st) "session" then [] else ["session"]) :=
    keysOf_setDefault _ _ _
  have hmem1 : keyMem (setDefault (topTree st) "session" (.vdict [])) "session" = true :=
    keyMem_setDefault_self _ _ _
  have hk2 : keysOf (setK (setDefault (topTree st) "session" (.vdict []))
      "session" (.vdict (setDefault (setDefault s "session_timestamp" (.vstr ""))
        "agenda" (.vstr genAgendaDefault)))) =
      keysOf (setDefault (topTree st) "session" (.vdict [])) :=
    keysOf_setK_mem _ _ _ hmem1
  have hmem2 : keyMem (setK (setDefault (topTree st) "session" (.vdict []))
      "session" (.vdict (setDefault (setDefault s "session_timestamp" (.vstr ""))
        "agenda" (.vstr genAgendaDefault)))) "allowed_domains" =
      keyMem (topTree st) "allowed_domains" := by
    unfold keyMem
    rw [lookupK_setK_ne _ _ _ _ (by decide), lookupK_setDefault_ne _ _ _ _ (by decide)]
  have hk3 := keysOf_setDefault (setK (setDefault (topTree st) "session" (.vdict []))
      "session" (.vdict (setDefault (setDefault s "session_timestamp" (.vstr ""))
        "agenda" (.vstr genAgendaDefault)))) "allowed_domains" allowedDomainsVal
  have hk4 := genEnsureDomains_keys genDomains (by decide) _ _ hdoms
  have hfil : genDomains.filter (fun d => !(keyMem (setDefault (setK (setDefault
      (topTree st) "session" (.vdict [])) "session"
      (.vdict (setDefault (setDefault s "session_timestamp" (.vstr ""))
        "agenda" (.vstr genAgendaDefault)))) "allowed_domains" allowedDomainsVal) d)) =
      genDomains.filter (fun d => !(keyMem (topTree st) d)) := by
    apply List.filter_congr
    intro d hd
    have hd1 : d ≠ "allowed_domains" := by
      intro he
      subst he
      simp [genDomains] at hd
    have hd2 : d ≠ "session" := by
      intro he
      subst he
      simp [genDomains] at hd
    unfold keyMem
    rw [lookupK_setDefault_ne _ _ _ _ hd1, lookupK_setK_ne _ _ _ _ hd2,
        lookupK_setDefault_ne _ _ _ _ hd2]
  rw [hfil] at hk4
  rw [hk4, hk3, hk2, hk1, hmem2]
  simp only [genTopSchemaKeys, genDomains]
  by_cases b1 : keyMem (topTree st) "session" <;>
    by_cases b2 : keyMem (topTree st) "allowed_domains" <;>
      simp [b1, b2, List.filter_cons]

theorem keyMem_ne_nil (l : PyDict) (k : String) (h : keyMem l k = true) :
    l ≠ [] := by
  intro he
  subst he
  simp [keyMem, lookupK] at h

theorem genEnsure_total (st : Option Val) (h : genWF st = true) :
    (genEnsureFixedStateShape st).isSome = true := by
  have hstep : ∃ st0, dictOrEmpty st = some st0 ∧ genSessionWF st0 = true ∧
      (∀ d ∈ genDomains, genDomWF (lookupK st0 d) = true) := by
    cases st with
    | none =>
      refine ⟨[], rfl, rfl, ?_⟩
      intro d _
      simp [lookupK, genDomWF]
    | some v =>
      unfold genWF at h
      by_cases ht : pyTruthy v
      · simp only [ht, if_true] at h
        cases v with
        | vdict l =>
          have h2 : genSessionWF l = true ∧
              (genDomains.all (fun d => genDomWF (lookupK l d))) = true := by
            constructor
            · exact (Bool.and_eq_true _ _).mp h |>.1
            · exact (Bool.and_eq_true _ _).mp h |>.2
          refine ⟨l, by simp [dictOrEmpty, ht, pyDictCoerce], h2.1, ?_⟩
          intro d hd
          exact List.all_eq_true.mp h2.2 d hd
        | vstr s => simp at h
        | vint n => simp at h
        | vnone => simp at h
        | vlist xs => simp at h
      · have ht2 : pyTruthy v = false := by simpa using ht
        refine ⟨[], by simp [dictOrEmpty, ht2], rfl, ?_⟩
        intro d _
        simp [lookupK, genDomWF]
  obtain ⟨st0, h0, hsess, hdoms⟩ := hstep
  unfold genEnsureFixedStateShape
  rw [h0]
  simp only
  have hsesslk : ∃ s, lookupK (setDefault st0 "session" (.vdict [])) "session" =
      some (.vdict s) := by
    by_cases hm : keyMem st0 "session"
    · rw [setDefault_of_mem _ _ _ hm]
      unfold genSessionWF at hsess
      cases hlk : lookupK st0 "session" with
      | none => simp [keyMem, hlk] at hm
      | some sv =>
        rw [hlk] at hsess
        cases sv with
        | vdict s => exact ⟨s, rfl⟩
        | vstr s => simp at hsess
        | vint n => simp at hsess
        | vnone => simp at hsess
        | vlist xs => simp at hsess
    · exact ⟨[], lookupK_setDefault_not_mem _ _ _ (by simpa using hm)⟩
  obtain ⟨s, hs⟩ := hsesslk
  rw [hs]
  simp only
  have hwf3 : ∀ d ∈ genDomains,
      genDomWF (lookupK (setDefault (setK (setDefault st0 "session" (.vdict []))
        "session" (.vdict (setDefault (setDefault s "session_timestamp" (.vstr ""))
          "agenda" (.vstr genAgendaDefault)))) "allowed_domains" allowedDomainsVal) d) =
        true := by
    intro d hd
    have hd1 : d ≠ "allowed_domains" := by
      intro he; subst he; simp [genDomains] at hd
    have hd2 : d ≠ "session" := by
      intro he; subst he; simp [genDomains] at hd
    rw [lookupK_setDefault_ne _ _ _ _ hd1, lookupK_setK_ne _ _ _ _ hd2,
        lookupK_setDefault_ne _ _ _ _ hd2]
    exact hdoms d hd
  exact genEnsureDomains_total genDomains (by decide) _ hwf3

theorem genEnsureDomain_fixpoint (dd : PyDict) (h : genDomComplete dd = true) :
    genEnsureDomain (some (.vdict dd)) = some dd := by
  unfold genDomComplete at h
  have hep : keyMem dd "existing_plan" = true := by
    have := (Bool.and_eq_true _ _).mp h
    have := (Bool.and_eq_true _ _).mp ((Bool.and_eq_true _ _).mp this.1).1
    exact this.1
  have hpr : keyMem dd "progress" = true := by
    have := (Bool.and_eq_true _ _).mp h
    have := (Bool.and_eq_true _ _).mp ((Bool.and_eq_true _ _).mp this.1).1
    exact this.2
  have hbar : keyMem dd "barrier" = true := by
    have := (Bool.and_eq_true _ _).mp h
    exact ((Bool.and_eq_true _ _).mp this.1).2
  have hgs : ∃ g, lookupK dd "goal_set" = some (.vdict g) ∧
      (∀ k ∈ genGoalKeys, keyMem g k = true) := by
    have hg := ((Bool.and_eq_true _ _).mp h).2
    cases hlk : lookupK dd "goal_set" with
    | none => rw [hlk] at hg; simp at hg
    | some gv =>
      rw [hlk] at hg
      cases gv with
      | vdict g => exact ⟨g, rfl, fun k hk => List.all_eq_true.mp hg k hk⟩
      | vstr s => simp at hg
      | vint n => simp at hg
      | vnone => simp at hg
      | vlist xs => simp at hg
  obtain ⟨g, hglk, hgmem⟩ := hgs
  have hne : dd ≠ [] := keyMem_ne_nil dd "existing_plan" hep
  unfold genEnsureDomain
  have hcoerce : dictOrEmpty (some (.vdict dd)) = some dd := by
    simp [dictOrEmpty, pyTruthy, List.isEmpty_iff, hne, pyDictCoerce]
  rw [hcoerce]
  simp only
  rw [setDefault_of_mem _ _ _ hep, setDefault_of_mem _ _ _ hpr,
      setDefault_of_mem _ _ _ (by unfold keyMem; rw [hglk]; rfl)]
  rw [hglk]
  show some (setDefault (setK dd "goal_set"
      (.vdict (genGoalKeys.foldl (fun acc k => setDefault acc k (.vstr "")) g)))
      "barrier" (.vstr "")) = some dd
  rw [foldl_setDefault_of_all_mem _ _ _ hgmem]
  rw [setK_self _ _ _ hglk]
  rw [setDefault_of_mem _ _ _ hbar]

theorem genEnsureDomains_fixpoint (ds : List String) :
    ∀ (st : PyDict),
      (∀ d ∈ ds, ∃ dd, lookupK st d = some (.vdict dd) ∧ genDomComplete dd = true) →
      genEnsureDomains st ds = some st := by
  induction ds with
  | nil => intro st _; rfl
  | cons d0 rest ih =>
    intro st h
    obtain ⟨dd, hlk, hcomp⟩ := h d0 (by simp)
    simp only [genEnsureDomains]
    rw [hlk, genEnsureDomain_fixpoint dd hcomp]
    simp only
    rw [setK_self _ _ _ hlk]
    exact ih st (fun d hd => h d (by simp [hd]))

/-- Fixpoint property of the generator Shape Normalizer: a schema-complete
tree is returned unchanged. -/
theorem genEnsure_fixpoint (t : PyDict) (h : SchemaComplete t = true) :
    genEnsureFixedStateShape (some (.vdict t)) = some t := by
  unfold SchemaComplete at h
  have hsess : ∃ s, lookupK t "session" = some (.vdict s) ∧
      keyMem s "session_timestamp" = true ∧ keyMem s "agenda" = true := by
    have h1 := ((Bool.and_eq_true _ _).mp ((Bool.and_eq_true _ _).mp h).1).1
    cases hlk : lookupK t "session" with
    | none => rw [hlk] at h1; simp at h1
    | some sv =>
      rw [hlk] at h1
      cases sv with
      | vdict s =>
        refine ⟨s, rfl, ?_, ?_⟩
        · exact ((Bool.and_eq_true _ _).mp h1).1
        · exact ((Bool.and_eq_true _ _).mp h1).2
      | vstr s => simp at h1
      | vint n => simp at h1
      | vnone => simp at h1
      | vlist xs => simp at h1
  obtain ⟨s, hslk, hts, hag⟩ := hsess
  have had : keyMem t "allowed_domains" = true :=
    ((Bool.and_eq_true _ _).mp ((Bool.and_eq_true _ _).mp h).1).2
  have hdoms : ∀ d ∈ genDomains,
      ∃ dd, lookupK t d = some (.vdict dd) ∧ genDomComplete dd = true := by
    intro d hd
    have h2 := ((Bool.and_eq_true _ _).mp h).2
    have h3 := List.all_eq_true.mp h2 d hd
    cases hlk : lookupK t d with
    | none => rw [hlk] at h3; simp at h3
    | some dv =>
      rw [hlk] at h3
      cases dv with
      | vdict dd => exact ⟨dd, rfl, h3⟩
      | vstr s2 => simp at h3
      | vint n => simp at h3
      | vnone => simp at h3
      | vlist xs => simp at h3
  have htne : t ≠ [] := by
    apply keyMem_ne_nil t "session"
    unfold keyMem
    rw [hslk]
    rfl
  unfold genEnsureFixedStateShape
  have hcoerce : dictOrEmpty (some (.vdict t)) = some t := by
    simp [dictOrEmpty, pyTruthy, List.isEmpty_iff, htne, pyDictCoerce]
  rw [hcoerce]
  simp only
  have hsm : keyMem t "session" = true := by
    unfold keyMem; rw [hslk]; rfl
  rw [setDefault_of_mem _ _ _ hsm, hslk]
  simp only
  rw [setDefault_of_mem _ _ _ hts, setDefault_of_mem _ _ _ hag]
  rw [setK_self _ _ _ hslk]
  rw [setDefault_of_mem _ _ _ had]
  exact genEnsureDomains_fixpoint genDomains t hdoms

-- Prompt_helper Shape Normalizer support.

theorem phEnsureDomains_lookup_ne (ds : List String) :
    ∀ (st t : PyDict), phEnsureDomains st ds = some t →
      ∀ k, k ∉ ds → lookupK t k = lookupK st k := by
  induction ds with
  | nil =>
    intro st t h k _
    simp only [phEnsureDomains, Option.some_inj] at h
    rw [h]
  | cons d0 rest ih =>
    intro st t h k hk
    simp only [phEnsureDomains] at h
    cases hdd : phEnsureDomain (lookupK st d0) with
    | none => rw [hdd] at h; simp at h
    | some dd =>
      rw [hdd] at h
      simp only at h
      have hk0 : k ≠ d0 := fun he => hk (by simp [he])
      have hkr : k ∉ rest := fun he => hk (by simp [he])
      rw [ih _ _ h k hkr]
      exact lookupK_setK_ne st d0 k (.vdict dd) hk0

theorem phEnsureDomains_dict (ds : List String) :
    ∀ (st t : PyDict), phEnsureDomains st ds = some t →
      ∀ d ∈ ds, ∃ dd, lookupK t d = some (.vdict dd) := by
  induction ds with
  | nil => intro st t _ d hd; simp at hd
  | cons d0 rest ih =>
    intro st t h d hd
    simp only [phEnsureDomains] at h
    cases hdd : phEnsureDomain (lookupK st d0) with
    | none => rw [hdd] at h; simp at h
    | some dd =>
      rw [hdd] at h
      simp only at h
      by_cases hdr : d ∈ rest
      · exact ih _ _ h d hdr
      · have hd0 : d = d0 := by
          rcases List.mem_cons.mp hd with he | he
          · exact he
          · exact absurd he hdr
        subst hd0
        refine ⟨dd, ?_⟩
        rw [phEnsureDomains_lookup_ne rest _ _ h d hdr]
        exact lookupK_setK_self st d (.vdict dd)

theorem phEnsure_domain_dict (st : Option Val) (t : PyDict)
    (h : phEnsureFixedStateShape st = some t) :
    ∀ d ∈ phDomains, ∃ dd, lookupK t d = some (.vdict dd) := by
  unfold phEnsureFixedStateShape at h
  cases h0 : dictOrEmpty st with
  | none => rw [h0] at h; simp at h
  | some st0 =>
    rw [h0] at h
    simp only at h
    cases hs : lookupK (setDefault (setDefault (setDefault (setDefault (setDefault st0
        "week" (.vint 1)) "day" (.vint 1)) "patient" (.vdict [])) "status" (.vdict []))
        "session" (.vdict [])) "session" with
    | none => rw [hs] at h; simp at h
    | some sv =>
      rw [hs] at h
      cases sv with
      | vdict s => exact phEnsureDomains_dict phDomains _ _ h
      | vstr s2 => simp at h
      | vint n => simp at h
      | vnone => simp at h
      | vlist xs => simp at h

/-- A validated prompt_helper delta never carries the segment `recording`
anywhere in its path. -/
theorem phAccepts_no_recording (p : List String) (h : phAccepts p = true) :
    "recording" ∉ p := by
  match p with
  | [root, l1] =>
    simp only [phAccepts, Bool.or_eq_true, Bool.and_eq_true] at h
    intro hm
    simp only [List.mem_cons, List.not_mem_nil, or_false] at hm
    rcases h with ⟨h1, h2⟩ | ⟨h1, h2⟩
    · rcases hm with hm | hm
      · rw [← hm] at h1; simp at h1
      · rw [← hm] at h2; simp at h2
    · rcases hm with hm | hm
      · rw [← hm] at h1
        simp [phDomMem, phDomains] at h1
      · rw [← hm] at h2
        simp at h2
  | [root, l1, l2] =>
    simp only [phAccepts, Bool.and_eq_true] at h
    obtain ⟨⟨h1, h2⟩, h3⟩ := h
    intro hm
    simp only [List.mem_cons, List.not_mem_nil, or_false] at hm
    rcases hm with hm | hm | hm
    · rw [← hm] at h1
      simp [phDomMem, phDomains] at h1
    · rw [← hm] at h2; simp at h2
    · rw [← hm] at h3
      simp [phGoalKeyMem, phGoalKeys] at h3
  | [] => simp [phAccepts] at h
  | [x] => simp [phAccepts] at h
  | x1 :: x2 :: x3 :: x4 :: rest => simp [phAccepts] at h

theorem phValidate_mem_accepts (raw : List (List String × String)) :
    ∀ p v, (p, v) ∈ phValidateAndFilterDeltas raw → phAccepts p = true := by
  induction raw with
  | nil => intro p v h; simp [phValidateAndFilterDeltas] at h
  | cons hd rest ih =>
    intro p v h
    obtain ⟨p0, v0⟩ := hd
    simp only [phValidateAndFilterDeltas] at h
    by_cases ha : phAccepts p0
    · rw [if_pos ha] at h
      rcases List.mem_cons.mp h with he | he
      · obtain ⟨he1, _⟩ := Prod.mk.injEq .. ▸ (by exact he : (p, v) = (p0, v0))
        rw [he1]
        exact ha
      · exact ih p v he
    · rw [if_neg ha] at h
      exact ih p v h

theorem phApplyOne_fact (t : PyDict) (d v : String) (dd : PyDict)
    (hlk : lookupK t d = some (.vdict dd)) :
    phApplyOne t [d, "fact"] v = t := by
  simp only [phApplyOne, splitLast]
  simp only [List.headD_cons, List.length_cons, List.length_nil]
  have c1 : (("fact" : String) == "agenda") = false := by decide
  have c2 : (("fact" : String) == "recording") = false := by decide
  have c3 : (("fact" : String) == "barrier") = false := by decide
  have c4 : ((0 + 1 + 1 : Nat) == 3) = false := by decide
  simp only [c1, c2, c3, c4, Bool.and_false, Bool.false_or, Bool.or_false,
    Bool.false_and, Bool.false_eq_true, if_false]
  simp only [updateAtPath, hlk]
  exact setK_self t d (.vdict dd) hlk

theorem genApplyDeltas_nil (st : Option Val) :
    genApplyDeltas st [] = genEnsureFixedStateShape st := by
  unfold genApplyDeltas
  cases genEnsureFixedStateShape st <;> simp

theorem phApplyDeltas_nil (st : Option Val) :
    phApplyDeltas st [] = phEnsureFixedStateShape st := by
  unfold phApplyDeltas
  cases phEnsureFixedStateShape st <;> simp

theorem genAccepts_false_of_bad_len (p : List String)
    (h : p.length ≠ 2 ∧ p.length ≠ 3) : genAccepts p = false := by
  match p with
  | [] => rfl
  | [x] => rfl
  | [x, y] => exact absurd rfl h.1
  | [x, y, z] => exact absurd rfl h.2
  | x1 :: x2 :: x3 :: x4 :: rest => rfl

theorem genValidate_single_none (p : List String) (v : String)
    (h : genAccepts p = false) :
    genValidateAndFilterDeltas [(p, v)] = [] := by
  simp [genValidateAndFilterDeltas, h]

-- Tag Normalizer embedding (generator.py `STATE_OPEN_RE`, `STATE_CLOSE_RE`,
-- `_normalize_state_tags`, `UPDATES_RE_ALL`, `_extract_updates_body`).

/-- Case-insensitive match of the five letters `STATE` at the head; returns
the remainder. -/
def matchStateWord (l : List Char) : Option (List Char) :=
  match l with
  | a :: b :: c :: d :: e :: r =>
    if a.toLower = 's' ∧ b.toLower = 't' ∧ c.toLower = 'a' ∧
        d.toLower = 't' ∧ e.toLower = 'e' then some r
    else none
  | _ => none

/-- Optional leading underscore of the `_?STATE` group. -/
def skipUnderscore (l : List Char) : List Char :=
  match l with
  | x :: t => if x = '_' then t else l
  | [] => l

/-- Closing `>` after optional whitespace. -/
def matchCloseAngle (l : List Char) : Option (List Char) :=
  match l.dropWhile isPySpace with
  | y :: out => if y = '>' then some out else none
  | [] => none

/-- Match of `STATE_OPEN_RE` (`<\s*(_?STATE)\s*>`, case-insensitive) at the
start of the input; returns the remainder after the tag. -/
def matchOpen (l : List Char) : Option (List Char) :=
  match l with
  | c0 :: rest =>
    if c0 = '<' then
      match matchStateWord (skipUnderscore (rest.dropWhile isPySpace)) with
      | some r3 => matchCloseAngle r3
      | none => none
    else none
  | [] => none

/-- Match of `STATE_CLOSE_RE` (`<\s*/\s*(_?STATE)\s*>`, case-insensitive). -/
def matchClose (l : List Char) : Option (List Char) :=
  match l with
  | c0 :: rest =>
    if c0 = '<' then
      match rest.dropWhile isPySpace with
      | s0 :: r1 =>
        if s0 = '/' then
          match matchStateWord (skipUnderscore (r1.dropWhile isPySpace)) with
          | some r3 => matchCloseAngle r3
          | none => none
        else none
      | [] => none
    else none
  | [] => none

theorem matchStateWord_length (l r : List Char) (h : matchStateWord l = some r) :
    r.length + 5 = l.length := by
  match l with
  | a :: b :: c :: d :: e :: t =>
    simp only [matchStateWord] at h
    by_cases hc : (a.toLower = 's' ∧ b.toLower = 't' ∧ c.toLower = 'a' ∧
        d.toLower = 't' ∧ e.toLower = 'e')
    · rw [if_pos hc] at h
      simp only [Option.some_inj] at h
      subst h
      simp
    · rw [if_neg hc] at h
      simp at h
  | [] => simp [matchStateWord] at h
  | [a] => simp [matchStateWord] at h
  | [a, b] => simp [matchStateWord] at h
  | [a, b, c] => simp [matchStateWord] at h
  | [a, b, c, d] => simp [matchStateWord] at h

theorem skipUnderscore_length (l : List Char) :
    (skipUnderscore l).length ≤ l.length := by
  match l with
  | [] => simp [skipUnderscore]
  | x :: t =>
    simp only [skipUnderscore]
    by_cases hx : x = '_'
    · simp [hx]
    · simp [hx]

theorem matchCloseAngle_length (l r : List Char) (h : matchCloseAngle l = some r) :
    r.length < l.length := by
  unfold matchCloseAngle at h
  have hd := length_dropWhile_le_py isPySpace l
  split at h
  · rename_i y out heq
    split at h
    · simp only [Option.some_inj] at h
      subst h
      rw [heq] at hd
      simp only [List.length_cons] at hd
      omega
    · simp at h
  · simp at h

theorem matchOpen_length (l out : List Char) (h : matchOpen l = some out) :
    out.length < l.length := by
  match l with
  | [] => simp [matchOpen] at h
  | c0 :: rest =>
    simp only [matchOpen] at h
    by_cases hc : c0 = '<'
    · rw [if_pos hc] at h
      cases hw : matchStateWord (skipUnderscore (rest.dropWhile isPySpace)) with
      | none => rw [hw] at h; simp at h
      | some r3 =>
        rw [hw] at h
        have h1 := matchCloseAngle_length r3 out h
        have h2 := matchStateWord_length _ _ hw
        have h3 := skipUnderscore_length (rest.dropWhile isPySpace)
        have h4 := length_dropWhile_le_py isPySpace rest
        simp only [List.length_cons]
        omega
    · rw [if_neg hc] at h
      simp at h

theorem matchClose_length (l out : List Char) (h : matchClose l = some out) :
    out.length < l.length := by
  match l with
  | [] => simp [matchClose] at h
  | c0 :: rest =>
    simp only [matchClose] at h
    by_cases hc : c0 = '<'
    · rw [if_pos hc] at h
      have h4 := length_dropWhile_le_py isPySpace rest
      split at h
      · rename_i s0 r1 heq
        split at h
        · split at h
          · rename_i r3 hw
            have h1 := matchCloseAngle_length r3 out h
            have h2 := matchStateWord_length _ _ hw
            have h3 := skipUnderscore_length (r1.dropWhile isPySpace)
            have h5 := length_dropWhile_le_py isPySpace r1
            rw [heq] at h4
            simp only [List.length_cons] at h4 ⊢
            omega
          · simp at h
        · simp at h
      · simp at h
    · rw [if_neg hc] at h
      simp at h

/-- Global substitution of `STATE_OPEN_RE` matches by the canonical
`<STATE>`, scanning left to right without overlap (Python `re.sub`). -/
def subOpen (l : List Char) : List Char :=
  match l with
  | [] => []
  | c :: r =>
    match h : matchOpen (c :: r) with
    | some out => '<' :: 'S' :: 'T' :: 'A' :: 'T' :: 'E' :: '>' :: subOpen out
    | none => c :: subOpen r
termination_by l.length
decreasing_by
  · exact matchOpen_length _ _ h
  · simp

/-- Global substitution of `STATE_CLOSE_RE` matches by `</STATE>`. -/
def subClose (l : List Char) : List Char :=
  match l with
  | [] => []
  | c :: r =>
    match h : matchClose (c :: r) with
    | some out => '<' :: '/' :: 'S' :: 'T' :: 'A' :: 'T' :: 'E' :: '>' :: subClose out
    | none => c :: subClose r
termination_by l.length
decreasing_by
  · exact matchClose_length _ _ h
  · simp

/-- Embedding of `_normalize_state_tags`: first every open-tag variant is
canonicalized, then every close-tag variant. -/
def normalizeStateTags (s : String) : String :=
  ⟨subClose (subOpen s.data)⟩

/-- Literal (case-insensitive) `<STATE>` of `UPDATES_RE_ALL` at the head. -/
def startsOpenLit (l : List Char) : Option (List Char) :=
  match l with
  | a :: b :: c :: d :: e :: f :: g :: r =>
    if a = '<' ∧ b.toLower = 's' ∧ c.toLower = 't' ∧ d.toLower = 'a' ∧
        e.toLower = 't' ∧ f.toLower = 'e' ∧ g = '>' then some r
    else none
  | _ => none

/-- Literal (case-insensitive) `</STATE>` of `UPDATES_RE_ALL` at the head. -/
def startsCloseLit (l : List Char) : Option (List Char) :=
  match l with
  | a :: b :: c :: d :: e :: f :: g :: i :: r =>
    if a = '<' ∧ b = '/' ∧ c.toLower = 's' ∧ d.toLower = 't' ∧
        e.toLower = 'a' ∧ f.toLower = 't' ∧ g.toLower = 'e' ∧ i = '>' then some r
    else none
  | _ => none

theorem startsOpenLit_length (l r : List Char) (h : startsOpenLit l = some r) :
    r.length + 7 = l.length := by
  unfold startsOpenLit at h
  split at h
  · split at h
    · simp only [Option.some_inj] at h
      subst h
      simp
    · simp at h
  · simp at h

theorem startsCloseLit_length (l r : List Char) (h : startsCloseLit l = some r) :
    r.length + 8 = l.length := by
  unfold startsCloseLit at h
  split at h
  · split at h
    · simp only [Option.some_inj] at h
      subst h
      simp
    · simp at h
  · simp at h

/-- Scan for the first `</STATE>` occurrence: returns the text before it and
the text after it (the lazy `.*?` of `UPDATES_RE_ALL` stops at the first
close tag). -/
def scanClose : List Char → Option (List Char × List Char)
  | [] => none
  | c :: r =>
    match startsCloseLit (c :: r) with
    | some after => some ([], after)
    | none =>
      match scanClose r with
      | some (b, a) => some (c :: b, a)
      | none => none

theorem scanClose_length (l : List Char) :
    ∀ b a, scanClose l = some (b, a) → a.length < l.length := by
  induction l with
  | nil => intro b a h; simp [scanClose] at h
  | cons c r ih =>
    intro b a h
    simp only [scanClose] at h
    cases hs : startsCloseLit (c :: r) with
    | some after =>
      rw [hs] at h
      simp only [Option.some_inj, Prod.mk.injEq] at h
      obtain ⟨hb, ha⟩ := h
      subst ha
      have := startsCloseLit_length _ _ hs
      simp only [List.length_cons] at this ⊢
      omega
    | none =>
      rw [hs] at h
      cases hr : scanClose r with
      | none => rw [hr] at h; simp at h
      | some ba =>
        obtain ⟨b0, a0⟩ := ba
        rw [hr] at h
        simp only [Option.some_inj, Prod.mk.injEq] at h
        obtain ⟨hb, ha⟩ := h
        subst ha
        have := ih b0 a0 hr
        simp only [List.length_cons]
        omega

/-- All bodies found by `UPDATES_RE_ALL.finditer`: between each `<STATE>` and
the first `</STATE>` after it, resuming after the close tag. -/
def findBodies (l : List Char) : List (List Char) :=
  match l with
  | [] => []
  | c :: r =>
    match ho : startsOpenLit (c :: r) with
    | some after =>
      match hc : scanClose after with
      | some (b, rest) => b :: findBodies rest
      | none => []
    | none => findBodies r
termination_by l.length
decreasing_by
  · have h1 := startsOpenLit_length _ _ ho
    have h2 := scanClose_length _ _ _ hc
    simp only [List.length_cons] at h1 ⊢
    omega
  · simp

/-- Embedding of `_extract_updates_body`: normalize tags, take the last
block body (stripped); with no block, fall back to the whole normalized
text, stripped, or to "no block" when that is empty. -/
def extractUpdatesBody (delta_output : Option String) : Option String :=
  match delta_output with
  | none => none
  | some s =>
    let n := normalizeStateTags s
    match (findBodies n.data).getLast? with
    | some b => some (pyStrip ⟨b⟩)
    | none => if pyStrip n == "" then none else some (pyStrip n)

theorem matchOpen_ne_lt (c : Char) (r : List Char) (h : c ≠ '<') :
    matchOpen (c :: r) = none := by
  simp [matchOpen, h]

theorem matchClose_ne_lt (c : Char) (r : List Char) (h : c ≠ '<') :
    matchClose (c :: r) = none := by
  simp [matchClose, h]

theorem startsOpenLit_ne_lt (c : Char) (r : List Char) (h : c ≠ '<') :
    startsOpenLit (c :: r) = none := by
  unfold startsOpenLit
  split
  · rename_i a b c2 d e f g t heq
    rw [if_neg]
    intro hcond
    injection heq with h1 _
    exact h (h1 ▸ hcond.1)
  · rfl

theorem startsCloseLit_ne_lt (c : Char) (r : List Char) (h : c ≠ '<') :
    startsCloseLit (c :: r) = none := by
  unfold startsCloseLit
  split
  · rename_i a b c2 d e f g i t heq
    rw [if_neg]
    intro hcond
    injection heq with h1 _
    exact h (h1 ▸ hcond.1)
  · rfl

theorem subOpen_cons_none (c : Char) (r : List Char)
    (h : matchOpen (c :: r) = none) : subOpen (c :: r) = c :: subOpen r := by
  rw [subOpen]
  split
  · rename_i out heq
    rw [h] at heq
    cases heq
  · rfl

theorem subOpen_cons_some (c : Char) (r out : List Char)
    (h : matchOpen (c :: r) = some out) :
    subOpen (c :: r) = '<' :: 'S' :: 'T' :: 'A' :: 'T' :: 'E' :: '>' :: subOpen out := by
  rw [subOpen]
  split
  · rename_i out2 heq
    rw [h] at heq
    injection heq with heq2
    rw [heq2]
  · rename_i heq
    rw [h] at heq
    cases heq

theorem subClose_cons_none (c : Char) (r : List Char)
    (h : matchClose (c :: r) = none) : subClose (c :: r) = c :: subClose r := by
  rw [subClose]
  split
  · rename_i out heq
    rw [h] at heq
    cases heq
  · rfl

theorem subClose_cons_some (c : Char) (r out : List Char)
    (h : matchClose (c :: r) = some out) :
    subClose (c :: r) = '<' :: '/' :: 'S' :: 'T' :: 'A' :: 'T' :: 'E' :: '>' :: subClose out := by
  rw [subClose]
  split
  · rename_i out2 heq
    rw [h] at heq
    injection heq with heq2
    rw [heq2]
  · rename_i heq
    rw [h] at heq
    cases heq

theorem subOpen_no_lt_append (a : List Char) (r : List Char)
    (h : ∀ c ∈ a, c ≠ '<') : subOpen (a ++ r) = a ++ subOpen r := by
  induction a with
  | nil => rfl
  | cons c t ih =>
    rw [List.cons_append, subOpen_cons_none c (t ++ r) (matchOpen_ne_lt _ _ (h c (by simp)))]
    rw [ih (fun d hd => h d (by simp [hd]))]
    rfl

theorem subClose_no_lt_append (a : List Char) (r : List Char)
    (h : ∀ c ∈ a, c ≠ '<') : subClose (a ++ r) = a ++ subClose r := by
  induction a with
  | nil => rfl
  | cons c t ih =>
    rw [List.cons_append, subClose_cons_none c (t ++ r) (matchClose_ne_lt _ _ (h c (by simp)))]
    rw [ih (fun d hd => h d (by simp [hd]))]
    rfl

theorem subOpen_nil : subOpen [] = [] := by rw [subOpen]

theorem subClose_nil : subClose [] = [] := by rw [subClose]

theorem subOpen_no_lt (a : List Char) (h : ∀ c ∈ a, c ≠ '<') : subOpen a = a := by
  have := subOpen_no_lt_append a [] h
  simpa [subOpen_nil] using this

theorem subClose_no_lt (a : List Char) (h : ∀ c ∈ a, c ≠ '<') : subClose a = a := by
  have := subClose_no_lt_append a [] h
  simpa [subClose_nil] using this

theorem findBodies_cons_open (c : Char) (r after b rest : List Char)
    (ho : startsOpenLit (c :: r) = some after)
    (hc : scanClose after = some (b, rest)) :
    findBodies (c :: r) = b :: findBodies rest := by
  rw [findBodies]
  split
  · rename_i after2 heq
    rw [ho] at heq
    injection heq with heq2
    subst heq2
    split
    · rename_i b2 rest2 heq3
      rw [hc] at heq3
      injection heq3 with heq4
      injection heq4 with hb hr
      rw [hb, hr]
    · rename_i heq3
      rw [hc] at heq3
      cases heq3
  · rename_i heq
    rw [ho] at heq
    cases heq

theorem findBodies_cons_open_dangling (c : Char) (r after : List Char)
    (ho : startsOpenLit (c :: r) = some after)
    (hc : scanClose after = none) :
    findBodies (c :: r) = [] := by
  rw [findBodies]
  split
  · rename_i after2 heq
    rw [ho] at heq
    injection heq with heq2
    subst heq2
    split
    · rename_i b2 rest2 heq3
      rw [hc] at heq3
      cases heq3
    · rfl
  · rename_i heq
    rw [ho] at heq
    cases heq

theorem findBodies_cons_none (c : Char) (r : List Char)
    (ho : startsOpenLit (c :: r) = none) :
    findBodies (c :: r) = findBodies r := by
  rw [findBodies]
  split
  · rename_i after heq
    rw [ho] at heq
    cases heq
  · rfl

theorem findBodies_nil : findBodies [] = [] := by rw [findBodies]

theorem findBodies_no_lt_append (a r : List Char) (h : ∀ c ∈ a, c ≠ '<') :
    findBodies (a ++ r) = findBodies r := by
  induction a with
  | nil => rfl
  | cons c t ih =>
    rw [List.cons_append,
      findBodies_cons_none c (t ++ r) (startsOpenLit_ne_lt _ _ (h c (by simp)))]
    exact ih (fun d hd => h d (by simp [hd]))

theorem findBodies_no_lt (a : List Char) (h : ∀ c ∈ a, c ≠ '<') :
    findBodies a = [] := by
  have := findBodies_no_lt_append a [] h
  simpa [findBodies_nil] using this

theorem scanClose_no_lt_none (b : List Char) (h : ∀ c ∈ b, c ≠ '<') :
    scanClose b = none := by
  induction b with
  | nil => rfl
  | cons c t ih =>
    simp only [scanClose, startsCloseLit_ne_lt c t (h c (by simp)),
      ih (fun d hd => h d (by simp [hd]))]

/-- Canonical tag character lists. -/
def openTagChars : List Char := ['<', 'S', 'T', 'A', 'T', 'E', '>']

def closeTagChars : List Char := ['<', '/', 'S', 'T', 'A', 'T', 'E', '>']

theorem openTagChars_eq : "<STATE>".data = openTagChars := rfl

theorem closeTagChars_eq : "</STATE>".data = closeTagChars := rfl

theorem scanClose_no_lt_close (b r : List Char) (h : ∀ c ∈ b, c ≠ '<') :
    scanClose (b ++ closeTagChars ++ r) = some (b, r) := by
  induction b with
  | nil =>
    show scanClose ('<' :: '/' :: 'S' :: 'T' :: 'A' :: 'T' :: 'E' :: '>' :: r) = some ([], r)
    simp only [scanClose]
    have hcl : startsCloseLit ('<' :: '/' :: 'S' :: 'T' :: 'A' :: 'T' :: 'E' :: '>' :: r) =
        some r := rfl
    rw [hcl]
  | cons c t ih =>
    have hne : (c : Char) ≠ '<' := h c (by simp)
    have ihh := ih (fun d hd => h d (by simp [hd]))
    simp only [List.cons_append]
    simp only [scanClose]
    rw [startsCloseLit_ne_lt c _ hne, ihh]

-- Behaviour of the two substitution passes on concrete near-miss tag
-- spellings used in the C9 theorem.

theorem subOpen_var1 (r : List Char) :
    subOpen ("< state >".data ++ r) = openTagChars ++ subOpen r :=
  subOpen_cons_some '<' (" state >".data ++ r) r rfl

theorem subOpen_var2 (r : List Char) :
    subOpen ("<_STATE >".data ++ r) = openTagChars ++ subOpen r :=
  subOpen_cons_some '<' ("_STATE >".data ++ r) r rfl

theorem subOpen_closevar1 (r : List Char) :
    subOpen ("</state>".data ++ r) = "</state>".data ++ subOpen r := by
  have h := subOpen_cons_none '<' ("/state>".data ++ r) rfl
  rw [subOpen_no_lt_append "/state>".data r (by decide)] at h
  exact h

theorem subOpen_closevar2 (r : List Char) :
    subOpen ("< / STATE >".data ++ r) = "< / STATE >".data ++ subOpen r := by
  have h := subOpen_cons_none '<' (" / STATE >".data ++ r) rfl
  rw [subOpen_no_lt_append " / STATE >".data r (by decide)] at h
  exact h

theorem subClose_openTag (r : List Char) :
    subClose (openTagChars ++ r) = openTagChars ++ subClose r := by
  have h := subClose_cons_none '<' ("STATE>".data ++ r) rfl
  rw [subClose_no_lt_append "STATE>".data r (by decide)] at h
  exact h

theorem subClose_closevar1 (r : List Char) :
    subClose ("</state>".data ++ r) = closeTagChars ++ subClose r :=
  subClose_cons_some '<' ("/state>".data ++ r) r rfl

theorem subClose_closevar2 (r : List Char) :
    subClose ("< / STATE >".data ++ r) = closeTagChars ++ subClose r :=
  subClose_cons_some '<' (" / STATE >".data ++ r) r rfl

theorem findBodies_openTag_pair (b r : List Char) (h : ∀ c ∈ b, c ≠ '<') :
    findBodies (openTagChars ++ (b ++ closeTagChars ++ r)) =
      b :: findBodies r := by
  apply findBodies_cons_open '<' ('S' :: 'T' :: 'A' :: 'T' :: 'E' :: '>' :: (b ++ closeTagChars ++ r))
    (b ++ closeTagChars ++ r) b r rfl
  exact scanClose_no_lt_close b r h

theorem findBodies_openTag_pair_r (b r : List Char) (h : ∀ c ∈ b, c ≠ '<') :
    findBodies (openTagChars ++ (b ++ (closeTagChars ++ r))) = b :: findBodies r := by
  have h0 := findBodies_openTag_pair b r h
  simpa [List.append_assoc] using h0

theorem normalize_two_blocks (t1 b1 t2 b t3 : List Char)
    (h1 : ∀ c ∈ t1, c ≠ '<') (h2 : ∀ c ∈ b1, c ≠ '<') (h3 : ∀ c ∈ t2, c ≠ '<')
    (h4 : ∀ c ∈ b, c ≠ '<') (h5 : ∀ c ∈ t3, c ≠ '<') :
    subClose (subOpen (t1 ++ ("< state >".data ++ (b1 ++ ("</state>".data ++
        (t2 ++ ("<_STATE >".data ++ (b ++ ("< / STATE >".data ++ t3))))))))) =
      t1 ++ (openTagChars ++ (b1 ++ (closeTagChars ++ (t2 ++ (openTagChars ++
        (b ++ (closeTagChars ++ t3))))))) := by
  rw [subOpen_no_lt_append t1 _ h1, subOpen_var1,
      subOpen_no_lt_append b1 _ h2, subOpen_closevar1,
      subOpen_no_lt_append t2 _ h3, subOpen_var2,
      subOpen_no_lt_append b _ h4, subOpen_closevar2,
      subOpen_no_lt t3 h5]
  rw [subClose_no_lt_append t1 _ h1, subClose_openTag,
      subClose_no_lt_append b1 _ h2, subClose_closevar1,
      subClose_no_lt_append t2 _ h3, subClose_openTag,
      subClose_no_lt_append b _ h4, subClose_closevar2,
      subClose_no_lt t3 h5]

theorem findBodies_two_blocks (t1 b1 t2 b t3 : List Char)
    (h1 : ∀ c ∈ t1, c ≠ '<') (h2 : ∀ c ∈ b1, c ≠ '<') (h3 : ∀ c ∈ t2, c ≠ '<')
    (h4 : ∀ c ∈ b, c ≠ '<') (h5 : ∀ c ∈ t3, c ≠ '<') :
    findBodies (t1 ++ (openTagChars ++ (b1 ++ (closeTagChars ++ (t2 ++ (openTagChars ++
        (b ++ (closeTagChars ++ t3)))))))) = [b1, b] := by
  rw [findBodies_no_lt_append t1 _ h1]
  rw [findBodies_openTag_pair_r b1 _ h2]
  rw [findBodies_no_lt_append t2 _ h3]
  rw [findBodies_openTag_pair_r b _ h4]
  rw [findBodies_no_lt t3 h5]

-- Delta Line Parser embedding (loop body of generator.py
-- `parse_and_clean_deltas`).

/-- Split at the first `:` (Python `line.split(":", 1)` after the
`":" in line` guard): `none` when no colon is present. -/
def splitFirstColonL : List Char → Option (List Char × List Char)
  | [] => none
  | c :: r =>
    if c = ':' then some ([], r)
    else
      match splitFirstColonL r with
      | some (a, b) => some (c :: a, b)
      | none => none

/-- Python `path_str.split("->")`: split on every non-overlapping `->`. -/
def splitArrowL : List Char → List (List Char)
  | [] => [[]]
  | '-' :: '>' :: r => [] :: splitArrowL r
  | c :: r =>
    match splitArrowL r with
    | h :: t => (c :: h) :: t
    | [] => [[c]]

/-- Path tokens: each `->` piece stripped, empty pieces discarded. -/
def pathTokens (pathStr : String) : List String :=
  (splitArrowL pathStr.data).filterMap (fun p =>
    let s := pyStripL p
    if s.isEmpty then none else some ⟨s⟩)

def isQuoteChar (c : Char) : Bool := c == '"' || c == '\''

/-- Value cleaning of the parser loop: strip surrounding whitespace, strip
trailing commas, wrap in ASCII quotes unless both end characters are already
quote characters, then drop the outer pair. -/
def cleanValue (valStr : String) : String :=
  let v := pyRstripCommas (pyStrip valStr)
  let v2 :=
    if 2 ≤ v.length ∧ isQuoteChar (v.data.headD ' ') ∧ isQuoteChar (v.data.getLastD ' ')
    then v
    else "\"" ++ pyStrip v ++ "\""
  ⟨(v2.data.drop 1).dropLast⟩

/-- One iteration of the parser loop of `parse_and_clean_deltas`: skip a
`NONE` sentinel line, skip a line without a colon, split at the first colon,
tokenize the path, clean the value; skip when no path tokens remain. -/
def parseDeltaLine (line : String) : Option (List String × String) :=
  if pyUpper line == "NONE" then none
  else if !(line.data.contains ':') then none
  else
    match splitFirstColonL line.data with
    | some (pathCs, valCs) =>
      let toks := pathTokens ⟨pathCs⟩
      if toks.isEmpty then none
      else some (toks, cleanValue ⟨valCs⟩)
    | none => none

/-- Value cleaning as the amended claim words it: after stripping whitespace
and then trailing commas, the text keeps its interior and loses its two end
characters when both ends are quote characters (not necessarily matching);
otherwise it is re-stripped of whitespace (quote-wrapping followed by
quote-stripping). -/
def amendedValueSpec (s : String) : String :=
  let w := pyRstripCommas (pyStrip s)
  if 2 ≤ w.length ∧ isQuoteChar (w.data.headD ' ') ∧ isQuoteChar (w.data.getLastD ' ')
  then ⟨(w.data.drop 1).dropLast⟩
  else pyStrip w

theorem cleanValue_eq_amended (s : String) : cleanValue s = amendedValueSpec s := by
  by_cases hc : 2 ≤ (pyRstripCommas (pyStrip s)).length ∧
      isQuoteChar ((pyRstripCommas (pyStrip s)).data.headD ' ') ∧
      isQuoteChar ((pyRstripCommas (pyStrip s)).data.getLastD ' ')
  · simp only [cleanValue, amendedValueSpec, if_pos hc]
  · simp only [cleanValue, amendedValueSpec, if_neg hc]
    have hdata : ("\"" ++ pyStrip (pyRstripCommas (pyStrip s)) ++ "\"").data =
        '"' :: ((pyStrip (pyRstripCommas (pyStrip s))).data ++ ['"']) := by
      simp [String.data_append]
    rw [hdata]
    simp [List.dropLast_concat]

theorem splitFirstColonL_append (l r : List Char) (h : ':' ∉ l) :
    splitFirstColonL (l ++ ':' :: r) = some (l, r) := by
  induction l with
  | nil => simp [splitFirstColonL]
  | cons c t ih =>
    have hc : c ≠ ':' := by
      intro he
      exact h (by simp [he])
    simp only [List.cons_append, splitFirstColonL, hc, if_false]
    simp only [List.append_eq]
    rw [ih (fun hm => h (by simp [hm]))]

theorem cleanValue_empty (s : String) (h : pyStrip s = "") : cleanValue s = "" := by
  rw [cleanValue_eq_amended]
  unfold amendedValueSpec
  rw [h]
  have h2 : pyRstripCommas "" = "" := rfl
  rw [h2]
  have h3 : pyStrip "" = "" := rfl
  simp [isQuoteChar, h3]

-- Serialization embedding (`state_to_text` =
-- `json.dumps(ensure_fixed_state_shape(state), ensure_ascii=False, indent=2)`).

/-- JSON string escaping (`ensure_ascii=False`): the double quote, the
backslash and the common control characters. -/
def jsonEscChar (c : Char) : List Char :=
  if c = '"' then ['\\', '"']
  else if c = '\\' then ['\\', '\\']
  else if c = '\n' then ['\\', 'n']
  else if c = '\r' then ['\\', 'r']
  else if c = '\t' then ['\\', 't']
  else if c = '\x08' then ['\\', 'b']
  else if c = '\x0c' then ['\\', 'f']
  else [c]

def jsonQuote (s : String) : String :=
  ⟨'"' :: (s.data.foldr (fun c acc => jsonEscChar c ++ acc) ['"'])⟩

def spacesIndent (n : Nat) : String := ⟨List.replicate n ' '⟩

mutual

/-- `json.dumps` with `indent=2`, at nesting level `lvl`. -/
def jsonVal : Val → Nat → String
  | .vstr s, _ => jsonQuote s
  | .vint n, _ => toString n
  | .vnone, _ => "null"
  | .vlist xs, lvl =>
    if xs.isEmpty then "[]"
    else "[\n" ++ jsonItems xs (lvl + 1) ++ "\n" ++ spacesIndent (lvl * 2) ++ "]"
  | .vdict es, lvl =>
    if es.isEmpty then "\x7b\x7d"
    else "\x7b\n" ++ jsonEntries es (lvl + 1) ++ "\n" ++ spacesIndent (lvl * 2) ++ "\x7d"

def jsonItems : List Val → Nat → String
  | [], _ => ""
  | [x], lvl => spacesIndent (lvl * 2) ++ jsonVal x lvl
  | x :: y :: rest, lvl =>
    spacesIndent (lvl * 2) ++ jsonVal x lvl ++ ",\n" ++ jsonItems (y :: rest) lvl

def jsonEntries : List (String × Val) → Nat → String
  | [], _ => ""
  | [(k, v)], lvl => spacesIndent (lvl * 2) ++ jsonQuote k ++ ": " ++ jsonVal v lvl
  | (k, v) :: e :: rest, lvl =>
    spacesIndent (lvl * 2) ++ jsonQuote k ++ ": " ++ jsonVal v lvl ++ ",\n" ++
      jsonEntries (e :: rest) lvl

end

/-- Embedding of generator.py `state_to_text`: serialize the normalized tree
(`none` models the exception propagated from the Shape Normalizer). -/
def stateToText (state : Option Val) : Option String :=
  (genEnsureFixedStateShape state).map (fun t => jsonVal (.vdict t) 0)

-- Python `==` on state trees: order-insensitive mapping equality.

/-- Every key of `b` is a key of `a`. -/
def keysSubset (b a : PyDict) : Bool := b.all (fun p => keyMem a p.1)

mutual

/-- Python `==` between embedded values: dicts compare as unordered maps,
lists elementwise, scalars by value. -/
def valEquiv : Val → Val → Bool
  | .vstr s, .vstr t => s == t
  | .vint m, .vint n => m == n
  | .vnone, .vnone => true
  | .vlist xs, .vlist ys => listEquiv xs ys
  | .vdict a, .vdict b => entriesSubset a b && keysSubset b a
  | _, _ => false

def listEquiv : List Val → List Val → Bool
  | [], [] => true
  | x :: xs, y :: ys => valEquiv x y && listEquiv xs ys
  | _, _ => false

/-- Every entry of `a` is present in `b` with an equal value. -/
def entriesSubset : List (String × Val) → List (String × Val) → Bool
  | [], _ => true
  | (k, v) :: rest, b =>
    (match lookupK b k with
     | some w => valEquiv v w
     | none => false) && entriesSubset rest b

end


-- Remaining helpers for the claim theorems.

theorem genDomMem_or (r : String) :
    genDomMem r = (r == "activity" || r == "nutrition" || r == "sleep") := by
  simp only [genDomMem, genDomains]
  simp [List.contains, List.elem_eq_mem]
  by_cases h1 : r = "activity" <;> by_cases h2 : r = "nutrition" <;>
    by_cases h3 : r = "sleep" <;> simp [h1, h2, h3]

theorem genGoalKeyMem_or (r : String) :
    genGoalKeyMem r = (r == "Specific" || r == "Measurable" || r == "Attainable" ||
      r == "Reward" || r == "Timeframe") := by
  simp only [genGoalKeyMem, genGoalKeys]
  simp [List.contains, List.elem_eq_mem]
  by_cases h1 : r = "Specific" <;> by_cases h2 : r = "Measurable" <;>
    by_cases h3 : r = "Attainable" <;> by_cases h4 : r = "Reward" <;>
      by_cases h5 : r = "Timeframe" <;> simp [h1, h2, h3, h4, h5]

/-- Acceptance as the amended claim words it: `session.session_timestamp`,
`session.agenda`, a domain with one of the four depth-2 leaves
(`existing_plan`, `progress`, `barrier`, and also `goal_set`), or a domain's
`goal_set` with one of the five Goal Keys at depth 3. -/
def specAcceptC3 : List String → Bool
  | [root, leaf] =>
    (root == "session" && (leaf == "session_timestamp" || leaf == "agenda")) ||
    ((root == "activity" || root == "nutrition" || root == "sleep") &&
      (leaf == "existing_plan" || leaf == "progress" || leaf == "barrier" ||
        leaf == "goal_set"))
  | [root, mid, gk] =>
    (root == "activity" || root == "nutrition" || root == "sleep") &&
    mid == "goal_set" &&
    (gk == "Specific" || gk == "Measurable" || gk == "Attainable" ||
      gk == "Reward" || gk == "Timeframe")
  | _ => false

theorem genAccepts_eq_spec (p : List String) : genAccepts p = specAcceptC3 p := by
  match p with
  | [] => rfl
  | [x] => rfl
  | [root, l1] =>
    simp only [genAccepts, specAcceptC3, genDomMem_or]
  | [root, l1, l2] =>
    simp only [genAccepts, specAcceptC3, genDomMem_or, genGoalKeyMem_or]
  | x1 :: x2 :: x3 :: x4 :: rest => rfl

theorem genValidate_eq_filter (ds : List (List String × String)) :
    genValidateAndFilterDeltas ds = ds.filter (fun pv => specAcceptC3 pv.1) := by
  induction ds with
  | nil => rfl
  | cons hd rest ih =>
    obtain ⟨p, v⟩ := hd
    simp only [genValidateAndFilterDeltas, List.filter_cons, genAccepts_eq_spec, ih]

theorem genApplyOne_goalset (t : PyDict) (d v : String) (dd : PyDict)
    (hlk : lookupK t d = some (.vdict dd)) :
    genApplyOne t [d, "goal_set"] v = t := by
  simp only [genApplyOne, splitLast]
  simp only [List.headD_cons, List.length_cons, List.length_nil]
  have c1 : (("goal_set" : String) == "agenda") = false := by decide
  have c1b : (("goal_set" : String) == "session_timestamp") = false := by decide
  have c2 : (("goal_set" : String) == "existing_plan") = false := by decide
  have c2b : (("goal_set" : String) == "progress") = false := by decide
  have c2c : (("goal_set" : String) == "barrier") = false := by decide
  have c3 : ((0 + 1 + 1 : Nat) == 3) = false := by decide
  simp only [c1, c1b, c2, c2b, c2c, c3, Bool.or_false, Bool.false_or, Bool.and_false,
    Bool.false_and, Bool.false_eq_true, if_false]
  simp only [updateAtPath, hlk]
  exact setK_self t d (.vdict dd) hlk

theorem pyStripL_eq_nil_imp (l : List Char) (h : pyStripL l = []) :
    ∀ c ∈ l, isPySpace c = true := by
  unfold pyStripL at h
  have h1 : (l.dropWhile isPySpace).reverse.dropWhile isPySpace = [] := by
    simpa using h
  have h2 : ∀ c ∈ (l.dropWhile isPySpace).reverse, isPySpace c = true :=
    List.dropWhile_eq_nil_iff.mp h1
  have h3 : ∀ c ∈ l.dropWhile isPySpace, isPySpace c = true := by
    intro c hc
    exact h2 c (by simpa using hc)
  intro c hc
  rw [← List.takeWhile_append_dropWhile (p := isPySpace) (l := l)] at hc
  rcases List.mem_append.mp hc with hc | hc
  · exact List.mem_takeWhile_imp hc
  · exact h3 c hc

theorem pyStrip_ne_empty_of_mem (s : String) (c : Char) (hm : c ∈ s.data)
    (hw : isPySpace c = false) : (pyStrip s == "") = false := by
  apply beq_eq_false_iff_ne.mpr
  intro he
  have hnil : pyStripL s.data = [] := by
    have := congrArg String.data he
    simpa [pyStrip] using this
  have := pyStripL_eq_nil_imp s.data hnil c hm
  rw [this] at hw
  cases hw

theorem findBodies_openTag_dangling (r : List Char) (h : ∀ c ∈ r, c ≠ '<') :
    findBodies (openTagChars ++ r) = [] :=
  findBodies_cons_open_dangling '<' ('S' :: 'T' :: 'A' :: 'T' :: 'E' :: '>' :: r) r rfl
    (scanClose_no_lt_none r h)

theorem extract_eq_general (s : String) (nrm : List Char)
    (hnorm : subClose (subOpen s.data) = nrm) :
    extractUpdatesBody (some s) =
      (match (findBodies nrm).getLast? with
       | some b => some (pyStrip ⟨b⟩)
       | none => if pyStrip ⟨nrm⟩ == "" then none else some (pyStrip ⟨nrm⟩)) := by
  show (match (findBodies (subClose (subOpen s.data))).getLast? with
    | some b => some (pyStrip (String.mk b))
    | none => if pyStrip (String.mk (subClose (subOpen s.data))) == "" then none
        else some (pyStrip (String.mk (subClose (subOpen s.data))))) = _
  rw [hnorm]

theorem parseDeltaLine_split (pathStr valStr : String)
    (hnc : ':' ∉ pathStr.data)
    (hnone : pyUpper (pathStr ++ ":" ++ valStr) ≠ "NONE") :
    parseDeltaLine (pathStr ++ ":" ++ valStr) =
      (if (pathTokens pathStr).isEmpty then none
       else some (pathTokens pathStr, cleanValue valStr)) := by
  have hdata : (pathStr ++ ":" ++ valStr).data = pathStr.data ++ ':' :: valStr.data := by
    simp [String.data_append]
  unfold parseDeltaLine
  rw [if_neg (by simpa using beq_eq_false_iff_ne.mpr hnone)]
  have hcol : (pathStr ++ ":" ++ valStr).data.contains ':' = true := by
    rw [hdata]
    simp [List.elem_iff]
  rw [hcol]
  simp only [Bool.not_true, Bool.false_eq_true, if_false]
  rw [hdata, splitFirstColonL_append _ _ hnc]

-- Concrete normalized default trees, used by witnesses.

def genDefaultGoalSet : PyDict :=
  [("Specific", .vstr ""), ("Measurable", .vstr ""), ("Attainable", .vstr ""),
   ("Reward", .vstr ""), ("Timeframe", .vstr "")]

def genDefaultDomain : PyDict :=
  [("existing_plan", .vstr ""), ("progress", .vstr ""),
   ("goal_set", .vdict genDefaultGoalSet), ("barrier", .vstr "")]

def genDefaultTree : PyDict :=
  [("session", .vdict [("session_timestamp", .vstr ""), ("agenda", .vstr genAgendaDefault)]),
   ("allowed_domains", allowedDomainsVal),
   ("activity", .vdict genDefaultDomain),
   ("nutrition", .vdict genDefaultDomain),
   ("sleep", .vdict genDefaultDomain)]

def phDefaultGoalSet : PyDict :=
  [("Specific", .vstr "None"), ("Measure", .vstr "None"), ("Attainable", .vstr "None"),
   ("Reward", .vstr "None"), ("Timeframe", .vstr "None")]

def phDefaultDomain : PyDict :=
  [("fact", .vstr "None"), ("goal_set", .vdict phDefaultGoalSet), ("barrier", .vstr "None")]

def phDefaultTree : PyDict :=
  [("week", .vint 1), ("day", .vint 1), ("patient", .vdict []), ("status", .vdict []),
   ("session", .vdict [("agenda", .vstr phAgendaDefault)]),
   ("activity", .vdict phDefaultDomain),
   ("nutrition", .vdict phDefaultDomain),
   ("sleep", .vdict phDefaultDomain),
   ("tracking", .vdict phDefaultDomain)]

theorem genEnsure_none_eq : genEnsureFixedStateShape none = some genDefaultTree := rfl

theorem phEnsure_none_eq : phEnsureFixedStateShape none = some phDefaultTree := rfl

-- Converse of totality: on every input outside the well-formed class the
-- Shape Normalizer raises.

/-- A false `all` over a list exhibits a failing element. -/
theorem exists_false_of_all_false (p : String → Bool) (l : List String)
    (h : l.all p = false) : ∃ d ∈ l, p d = false := by
  induction l with
  | nil => simp [List.all_nil] at h
  | cons a t ih =>
    cases hpa : p a with
    | false => exact ⟨a, by simp, hpa⟩
    | true =>
      rw [List.all_cons, hpa, Bool.true_and] at h
      obtain ⟨d, hd, hpd⟩ := ih h
      exact ⟨d, by simp [hd], hpd⟩

/-- `_ensure_domain` raises exactly when the domain entry is not repairable:
a truthy non-dict, or a dict whose present `goal_set` is not a dict. -/
theorem genEnsureDomain_none (v : Option Val) (h : genDomWF v = false) :
    genEnsureDomain v = none := by
  cases v with
  | none => simp [genDomWF] at h
  | some x =>
    by_cases ht : pyTruthy x
    · cases x with
      | vdict dd =>
        have h2 : (match lookupK dd "goal_set" with
            | none => true
            | some (.vdict _) => true
            | some _ => false) = false := by
          have hx : genDomWF (some (.vdict dd)) =
              (if pyTruthy (.vdict dd) = true then
                (match lookupK dd "goal_set" with
                 | none => true
                 | some (.vdict _) => true
                 | some _ => false)
              else true) := rfl
          rw [hx, if_pos ht] at h
          exact h
        have hd0 : dictOrEmpty (some (.vdict dd)) = some dd := by
          simp [dictOrEmpty, ht, pyDictCoerce]
        cases hg : lookupK dd "goal_set" with
        | none => rw [hg] at h2; simp at h2
        | some gv =>
          rw [hg] at h2
          have hl2 : lookupK (setDefault (setDefault dd "existing_plan" (.vstr ""))
              "progress" (.vstr "")) "goal_set" = some gv := by
            rw [lookupK_setDefault_ne _ _ _ _ (by decide),
              lookupK_setDefault_ne _ _ _ _ (by decide)]
            exact hg
          have hmem2 : keyMem (setDefault (setDefault dd "existing_plan" (.vstr ""))
              "progress" (.vstr "")) "goal_set" = true := by
            unfold keyMem
            rw [hl2]
            rfl
          simp only [genEnsureDomain, hd0]
          rw [setDefault_of_mem _ _ _ hmem2, hl2]
          cases gv with
          | vdict g => simp at h2
          | vstr s => rfl
          | vint n => rfl
          | vnone => rfl
          | vlist xs => rfl
      | vstr s => simp [genEnsureDomain, dictOrEmpty, ht, pyDictCoerce]
      | vint n => simp [genEnsureDomain, dictOrEmpty, ht, pyDictCoerce]
      | vnone => simp [pyTruthy] at ht
      | vlist xs => simp [genEnsureDomain, dictOrEmpty, ht, pyDictCoerce]
    · have hx : genDomWF (some x) = true := by
        cases x with
        | vdict d => simp [genDomWF, ht]
        | vstr s => simp [genDomWF, ht]
        | vint n => simp [genDomWF, ht]
        | vnone => simp [genDomWF, pyTruthy]
        | vlist xs => simp [genDomWF, ht]
      rw [hx] at h
      exact Bool.noConfusion h

/-- The domain loop raises as soon as any listed domain is not repairable. -/
theorem genEnsureDomains_none (d : String) (ds : List String) :
    ∀ st : PyDict, ds.Nodup → d ∈ ds → genDomWF (lookupK st d) = false →
      genEnsureDomains st ds = none := by
  induction ds with
  | nil =>
    intro st _ hd _
    cases hd
  | cons d0 rest ih =>
    intro st hnd hd h
    rcases List.mem_cons.mp hd with he | he
    · subst he
      simp only [genEnsureDomains, genEnsureDomain_none _ h]
    · have hneq : d ≠ d0 := by
        intro heq
        subst heq
        exact (List.nodup_cons.mp hnd).1 he
      simp only [genEnsureDomains]
      cases hge : genEnsureDomain (lookupK st d0) with
      | none => rfl
      | some dd =>
        show genEnsureDomains (setK st d0 (.vdict dd)) rest = none
        apply ih (setK st d0 (.vdict dd)) (List.nodup_cons.mp hnd).2 he
        rw [lookupK_setK_ne _ _ _ _ hneq]
        exact h

/-- A present non-dict `session` value, falsy or truthy, makes the Shape
Normalizer raise: `setdefault` keeps the present value. -/
theorem genEnsure_session_bad (l : PyDict) (v : Val)
    (hlk : lookupK l "session" = some v) (hnd : ∀ s, v ≠ .vdict s) :
    genEnsureFixedStateShape (some (.vdict l)) = none := by
  have hne : l ≠ [] := by
    intro he
    subst he
    simp [lookupK] at hlk
  have ht : pyTruthy (.vdict l) = true := by
    cases l with
    | nil => exact absurd rfl hne
    | cons a t => rfl
  have hd : dictOrEmpty (some (.vdict l)) = some l := by
    simp [dictOrEmpty, ht, pyDictCoerce]
  have hmem : keyMem l "session" = true := by
    unfold keyMem
    rw [hlk]
    rfl
  simp only [genEnsureFixedStateShape, hd]
  rw [setDefault_of_mem l "session" (.vdict []) hmem, hlk]
  cases v with
  | vdict s => exact absurd rfl (hnd s)
  | vstr s => rfl
  | vint n => rfl
  | vnone => rfl
  | vlist xs => rfl

/-- Reduction of the Shape Normalizer on a truthy dict with a dict-valued
(defaulted) `session` entry to the domain loop. -/
theorem genEnsure_eq_domains (l s : PyDict) (ht : pyTruthy (.vdict l) = true)
    (hlk : lookupK (setDefault l "session" (.vdict [])) "session" = some (.vdict s)) :
    genEnsureFixedStateShape (some (.vdict l)) =
      genEnsureDomains
        (setDefault (setK (setDefault l "session" (.vdict [])) "session"
          (.vdict (setDefault (setDefault s "session_timestamp" (.vstr ""))
            "agenda" (.vstr genAgendaDefault)))) "allowed_domains" allowedDomainsVal)
        genDomains := by
  have hd : dictOrEmpty (some (.vdict l)) = some l := by
    simp [dictOrEmpty, ht, pyDictCoerce]
  simp only [genEnsureFixedStateShape, hd, hlk]

/-- On every input outside the well-formed class the Shape Normalizer
raises. -/
theorem genWF_false_none (st : Option Val) (h : genWF st = false) :
    genEnsureFixedStateShape st = none := by
  cases st with
  | none => simp [genWF] at h
  | some v =>
    by_cases ht : pyTruthy v
    · cases v with
      | vdict l =>
        have h2 : (genSessionWF l &&
            genDomains.all (fun d => genDomWF (lookupK l d))) = false := by
          have hx : genWF (some (.vdict l)) =
              (if pyTruthy (.vdict l) = true then
                (genSessionWF l && genDomains.all (fun d => genDomWF (lookupK l d)))
              else true) := rfl
          rw [hx, if_pos ht] at h
          exact h
        cases hs : genSessionWF l with
        | false =>
          unfold genSessionWF at hs
          cases hlk : lookupK l "session" with
          | none => rw [hlk] at hs; simp at hs
          | some sv =>
            rw [hlk] at hs
            cases sv with
            | vdict s2 => simp at hs
            | vstr s2 =>
              exact genEnsure_session_bad l (.vstr s2) hlk (fun s3 hh => Val.noConfusion hh)
            | vint n =>
              exact genEnsure_session_bad l (.vint n) hlk (fun s3 hh => Val.noConfusion hh)
            | vnone =>
              exact genEnsure_session_bad l .vnone hlk (fun s3 hh => Val.noConfusion hh)
            | vlist xs =>
              exact genEnsure_session_bad l (.vlist xs) hlk (fun s3 hh => Val.noConfusion hh)
        | true =>
          rw [hs, Bool.true_and] at h2
          obtain ⟨d, hdmem, hdf⟩ := exists_false_of_all_false _ genDomains h2
          have hsess : ∃ s, lookupK (setDefault l "session" (.vdict [])) "session" =
              some (.vdict s) := by
            unfold genSessionWF at hs
            cases hlk : lookupK l "session" with
            | none =>
              refine ⟨[], ?_⟩
              have hm : keyMem l "session" = false := by
                unfold keyMem
                rw [hlk]
                rfl
              unfold setDefault
              rw [hm]
              simp only [Bool.false_eq_true, if_false]
              exact lookupK_append_not_mem l "session" (.vdict []) hm
            | some sv =>
              rw [hlk] at hs
              cases sv with
              | vdict s2 =>
                refine ⟨s2, ?_⟩
                have hm : keyMem l "session" = true := by
                  unfold keyMem
                  rw [hlk]
                  rfl
                rw [setDefault_of_mem l "session" (.vdict []) hm]
                exact hlk
              | vstr s2 => simp at hs
              | vint n => simp at hs
              | vnone => simp at hs
              | vlist xs => simp at hs
          obtain ⟨s, hlk1⟩ := hsess
          rw [genEnsure_eq_domains l s ht hlk1]
          have hne1 : d ≠ "session" := by
            intro he
            subst he
            exact absurd hdmem (by decide)
          have hne2 : d ≠ "allowed_domains" := by
            intro he
            subst he
            exact absurd hdmem (by decide)
          apply genEnsureDomains_none d genDomains _ (by decide) hdmem
          rw [lookupK_setDefault_ne _ _ _ _ hne2, lookupK_setK_ne _ _ _ _ hne1,
            lookupK_setDefault_ne _ _ _ _ hne1]
          exact hdf
      | vstr s => simp [genEnsureFixedStateShape, dictOrEmpty, ht, pyDictCoerce]
      | vint n => simp [genEnsureFixedStateShape, dictOrEmpty, ht, pyDictCoerce]
      | vnone => simp [pyTruthy] at ht
      | vlist xs => simp [genEnsureFixedStateShape, dictOrEmpty, ht, pyDictCoerce]
    · have hx : genWF (some v) = true := by
        cases v with
        | vdict l => simp [genWF, ht]
        | vstr s => simp [genWF, ht]
        | vint n => simp [genWF, ht]
        | vnone => simp [genWF, pyTruthy]
        | vlist xs => simp [genWF, ht]
      rw [hx] at h
      exact Bool.noConfusion h

/-- Exact characterization of success: the Shape Normalizer returns normally
precisely on the well-formed class `genWF`. -/
theorem genEnsure_isSome_eq (st : Option Val) :
    (genEnsureFixedStateShape st).isSome = genWF st := by
  cases hw : genWF st with
  | true => exact genEnsure_total st hw
  | false => rw [genWF_false_none st hw]; rfl

-- ===== Claim theorems =====

/-- C1 counterexample: the Shape Normalizer does not delete keys outside the
fixed schema. On the input dict with the single unknown key `junk`, the
result keeps `junk` (and also holds the undocumented top-level key
`allowed_domains`), so the output does not contain exactly the schema keys. -/
theorem c1_counterexample :
    (genEnsureFixedStateShape (some (.vdict [("junk", .vstr "j")]))).map keysOf =
      some ["junk", "session", "allowed_domains", "activity", "nutrition", "sleep"] ∧
    "junk" ∉ genTopSchemaKeys := by
  constructor
  · decide
  · decide

/-- C1 (amended): schema closure holds only one-sidedly. For every
well-formed input the Shape Normalizer succeeds and the result contains at
least the full fixed schema (session with both leaves, `allowed_domains`,
every domain complete); keys outside the schema are preserved unchanged, not
removed, and the key list of the result is exactly the input keys followed by
the missing schema keys in schema order. -/
theorem c1_schema_closure (st : Option Val) (h : genWF st = true) :
    ∃ t, genEnsureFixedStateShape st = some t ∧ SchemaComplete t = true ∧
      (∀ k, k ∉ genTopSchemaKeys → lookupK t k = lookupK (topTree st) k) ∧
      keysOf t = keysOf (topTree st) ++
        genTopSchemaKeys.filter (fun k => !(keyMem (topTree st) k)) := by
  have htot := genEnsure_total st h
  cases heq : genEnsureFixedStateShape st with
  | none => rw [heq] at htot; simp at htot
  | some t =>
    exact ⟨t, rfl, genEnsure_success_complete st t heq,
      genEnsure_preserves_unknown st t heq, genEnsure_keys st t heq⟩

/-- C1 witness: the amended closure property instantiated on the dict with
the single unknown key `junk`. -/
theorem c1_witness :
    genWF (some (.vdict [("junk", .vstr "j")])) = true ∧
    (∃ t, genEnsureFixedStateShape (some (.vdict [("junk", .vstr "j")])) = some t ∧
      SchemaComplete t = true ∧
      (∀ k, k ∉ genTopSchemaKeys →
        lookupK t k = lookupK (topTree (some (.vdict [("junk", .vstr "j")]))) k) ∧
      keysOf t = keysOf (topTree (some (.vdict [("junk", .vstr "j")]))) ++
        genTopSchemaKeys.filter
          (fun k => !(keyMem (topTree (some (.vdict [("junk", .vstr "j")]))) k))) :=
  ⟨by decide, c1_schema_closure (some (.vdict [("junk", .vstr "j")])) (by decide)⟩

/-- C2 counterexample: a wrong value type at the `session` key is NOT
repaired silently. On a dict whose `session` holds a truthy string, the
Python code calls `.setdefault` on a str and raises `AttributeError`; the
embedding returns `none` (exception) rather than a repaired tree. -/
theorem c2_counterexample :
    genEnsureFixedStateShape (some (.vdict [("session", .vstr "boom")])) = none := rfl

/-- C2 (amended): the Shape Normalizer repairs silently EXACTLY the
well-formed corruptions. It returns normally precisely on the class `genWF`:
inputs that are absent or falsy, or dicts whose `session` entry and (inside
each truthy domain dict) `goal_set` entry are absent or dicts, and whose
domain entries are absent, falsy or dicts. Every success satisfies every
schema invariant. Outside the class the corruption surfaces as an exception:
in particular a PRESENT non-dict `session` value, even a falsy one such as
`None`, raises instead of being repaired, because `setdefault` keeps the
present value and the following attribute access fails. -/
theorem c2_corruption_repair :
    (∀ st : Option Val, (genEnsureFixedStateShape st).isSome = genWF st) ∧
    (∀ (st : Option Val) (t : PyDict), genEnsureFixedStateShape st = some t →
        SchemaComplete t = true) ∧
    (∀ (l : PyDict) (v : Val), lookupK l "session" = some v →
        (∀ s, v ≠ .vdict s) →
        genEnsureFixedStateShape (some (.vdict l)) = none) :=
  ⟨genEnsure_isSome_eq, genEnsure_success_complete, genEnsure_session_bad⟩

/-- C2 witness: the exact characterization applied to a repairable corrupted
dict (a falsy `None` under `activity`, an empty string under `nutrition`),
schema completeness of the default tree, and the raising branch applied to
the falsy-but-present `session = None`. -/
theorem c2_witness :
    ((genEnsureFixedStateShape
        (some (.vdict [("activity", .vnone), ("nutrition", .vstr "")]))).isSome =
      genWF (some (.vdict [("activity", .vnone), ("nutrition", .vstr "")]))) ∧
    SchemaComplete genDefaultTree = true ∧
    genEnsureFixedStateShape (some (.vdict [("session", .vnone)])) = none :=
  ⟨c2_corruption_repair.1 (some (.vdict [("activity", .vnone), ("nutrition", .vstr "")])),
   c2_corruption_repair.2.1 none genDefaultTree rfl,
   c2_corruption_repair.2.2 [("session", .vnone)] .vnone rfl
     (fun s hh => Val.noConfusion hh)⟩

/-- C3 counterexample: the depth-2 path `activity.goal_set` is ACCEPTED by
the validator (because `goal_set` is listed in `ALLOWED_LEAVES` for every
domain), contradicting the claim that it is discarded. -/
theorem c3_counterexample :
    genValidateAndFilterDeltas [(["activity", "goal_set"], "v")] =
      [(["activity", "goal_set"], "v")] ∧
    ([(["activity", "goal_set"], "v")] : List (List String × String)) ≠ [] := by
  constructor
  · decide
  · decide

/-- C3 (amended): the validator keeps exactly the deltas whose path is
`session.session_timestamp`, `session.agenda`, a domain with one of the four
depth-2 leaves (`existing_plan`, `progress`, `barrier`, and also `goal_set`),
or a domain `goal_set` Goal-Key path of depth 3.  The accepted depth-2
`goal_set` delta is then silently ignored by the merge engine: applying it
returns the normalized tree unchanged. -/
theorem c3_validator_goal_set :
    (∀ ds : List (List String × String),
        genValidateAndFilterDeltas ds = ds.filter (fun pv => specAcceptC3 pv.1)) ∧
    (∀ (st : Option Val) (d v : String), d ∈ genDomains →
        genApplyDeltas st [([d, "goal_set"], v)] = genEnsureFixedStateShape st) := by
  refine ⟨genValidate_eq_filter, ?_⟩
  intro st d v hd
  unfold genApplyDeltas
  cases heq : genEnsureFixedStateShape st with
  | none => rfl
  | some t =>
    have hcomp := genEnsure_success_complete st t heq
    unfold SchemaComplete at hcomp
    have hall := ((Bool.and_eq_true _ _).mp hcomp).2
    have hone : (match lookupK t d with
        | some (.vdict dd) => genDomComplete dd
        | _ => false) = true := List.all_eq_true.mp hall d hd
    show some (genApplyOne t [d, "goal_set"] v) = some t
    cases hlk : lookupK t d with
    | none => rw [hlk] at hone; simp at hone
    | some dv =>
      rw [hlk] at hone
      cases dv with
      | vdict dd => exact congrArg some (genApplyOne_goalset t d v dd hlk)
      | vstr s => simp at hone
      | vint n => simp at hone
      | vnone => simp at hone
      | vlist xs => simp at hone

/-- C3 witness: applying the accepted depth-2 `goal_set` delta to the empty
state is the same as only normalizing the empty state. -/
theorem c3_witness :
    genApplyDeltas none [(["activity", "goal_set"], "x")] =
      genEnsureFixedStateShape none :=
  c3_validator_goal_set.2 none "activity" "x" (by decide)

/-- C4 counterexample: dedup idempotence fails for values that contain a
separator. Appending the value `a; b` to an empty leaf twice gives
`a; b; a; b`, not `a; b`: the second pass tokenizes the existing text into
`a` and `b`, neither of which equals `a; b`. -/
theorem c4_counterexample :
    appendText (some (appendText none "a; b" "; " none)) "a; b" "; " none =
      .vstr "a; b; a; b" ∧
    appendText none "a; b" "; " none = .vstr "a; b" ∧
    ("a; b; a; b" : String) ≠ "a; b" := by
  refine ⟨rfl, rfl, ?_⟩
  decide

/-- C4 (amended): dedup idempotence of `_append_text` holds under two
conditions that the code actually needs: the stripped new value contains no
separator character (`;`, `|`, `,`, `/`), and the result of the first append
fits under the length cap, so no truncation occurs. Under those conditions,
appending the same value a second time returns the first result unchanged. -/
theorem c4_append_dedup_idempotent (existing : Option Val) (v : String) (m : Option Nat)
    (hsep : ∀ c ∈ (pyStrip v).data, isSepChar c = false)
    (hcap : ∀ L, m = some L → valStrLen (appendText existing v "; " none) ≤ L) :
    appendText (some (appendText existing v "; " m)) v "; " m =
      appendText existing v "; " m :=
  appendText_idem existing v m hsep hcap

/-- C4 witness: the amended idempotence property instantiated at the
existing leaf `x`, the new value `hello` and cap 100. -/
theorem c4_witness :
    appendText (some (appendText (some (.vstr "x")) "hello" "; " (some 100)))
        "hello" "; " (some 100) =
      appendText (some (.vstr "x")) "hello" "; " (some 100) :=
  c4_append_dedup_idempotent (some (.vstr "x")) "hello" (some 100) (by decide)
    (by intro L hL; injection hL with h; subst h; decide)

/-- C5: in the prompt_helper schema variant, a validated `fact` delta is
silently dropped. Whenever the Shape Normalizer succeeds on a state, applying
a single domain `fact` delta returns the normalized tree unchanged (the merge
engine writes depth-2 text only for leaves named `recording` or `barrier`);
and no delta surviving validation ever carries the segment `recording`, so
the `recording` branch of the merge engine is unreachable from validated
input. -/
theorem c5_fact_delta_dropped :
    (∀ (st : Option Val) (t : PyDict) (d v : String),
        phEnsureFixedStateShape st = some t → d ∈ phDomains →
        phApplyDeltas st [([d, "fact"], v)] = some t) ∧
    (∀ (raw : List (List String × String)) (p : List String) (v : String),
        (p, v) ∈ phValidateAndFilterDeltas raw → "recording" ∉ p) := by
  constructor
  · intro st t d v hsucc hd
    unfold phApplyDeltas
    rw [hsucc]
    show some (phApplyOne t [d, "fact"] v) = some t
    obtain ⟨dd, hlk⟩ := phEnsure_domain_dict st t hsucc d hd
    exact congrArg some (phApplyOne_fact t d v dd hlk)
  · intro raw p v hm
    exact phAccepts_no_recording p (phValidate_mem_accepts raw p v hm)

/-- C5 witness: a `fact` delta on the empty state leaves the default tree
unchanged, and the validated form of that delta does not contain
`recording`. -/
theorem c5_witness :
    phApplyDeltas none [(["activity", "fact"], "ate fruit")] = some phDefaultTree ∧
    "recording" ∉ (["activity", "fact"] : List String) :=
  ⟨c5_fact_delta_dropped.1 none phDefaultTree "activity" "ate fruit" rfl (by decide),
   c5_fact_delta_dropped.2 [(["activity", "fact"], "ate fruit")]
     ["activity", "fact"] "ate fruit" (by decide)⟩

/-- C6: unknown-path rejection. A delta whose path is
`unknown_domain.x`, or whose depth lies outside 2..3, is removed by the
validator, so processing it equals bare shape normalization (no field beyond
the normalization defaults changes); and on every well-formed state the
pipeline returns normally (no exception). -/
theorem c6_unknown_path_rejected (st : Option Val) (p : List String) (v : String)
    (h : p = ["unknown_domain", "x"] ∨ p.length ≠ 2 ∧ p.length ≠ 3) :
    genApplyDeltas st (genValidateAndFilterDeltas [(p, v)]) =
      genEnsureFixedStateShape st ∧
    (genWF st = true →
      (genApplyDeltas st (genValidateAndFilterDeltas [(p, v)])).isSome = true) := by
  have hacc : genAccepts p = false := by
    rcases h with h | h
    · subst h; decide
    · exact genAccepts_false_of_bad_len p h
  rw [genValidate_single_none p v hacc, genApplyDeltas_nil]
  exact ⟨rfl, fun hwf => genEnsure_total st hwf⟩

/-- C6 witness: the rejection property instantiated on the empty state and
the path `unknown_domain.x`. -/
theorem c6_witness :
    (genApplyDeltas none (genValidateAndFilterDeltas [(["unknown_domain", "x"], "v")]) =
      genEnsureFixedStateShape none) ∧
    (genApplyDeltas none
      (genValidateAndFilterDeltas [(["unknown_domain", "x"], "v")])).isSome = true := by
  have h := c6_unknown_path_rejected none ["unknown_domain", "x"] "v" (Or.inl rfl)
  exact ⟨h.1, h.2 rfl⟩

/-- C7 counterexample: the quote-stripping step does not require a MATCHING
pair of quote characters. On the line `session->agenda: "abc` followed by a
single quote, the value starts with a double quote and ends with a single
quote, yet the code strips both, yielding `abc` instead of keeping the
mismatched-quoted text wrapped. -/
theorem c7_counterexample :
    (parseDeltaLine "session->agenda: \x22abc\x27").map Prod.snd = some "abc" ∧
    some ("abc" : String) ≠ some "\x22abc\x27" := by
  constructor
  · decide
  · decide

/-- C7 (amended): value parsing of a delta line. The value cleaner strips
surrounding whitespace and trailing commas, then removes the first and last
character whenever the trimmed text has length at least 2, starts with ANY
quote character and ends with ANY quote character (matching is not required);
otherwise it re-trims and keeps the text. A line splits at its first colon
only: for a path part without a colon the parser returns the arrow-split
path tokens with the cleaned value (additional colons stay inside the
value), unless the path tokens are empty. A value that strips to the empty
string is kept as the empty string. -/
theorem c7_value_parsing :
    (∀ s, cleanValue s = amendedValueSpec s) ∧
    (∀ (pathStr valStr : String), ':' ∉ pathStr.data →
        pyUpper (pathStr ++ ":" ++ valStr) ≠ "NONE" →
        parseDeltaLine (pathStr ++ ":" ++ valStr) =
          (if (pathTokens pathStr).isEmpty then none
           else some (pathTokens pathStr, cleanValue valStr))) ∧
    (∀ s, pyStrip s = "" → cleanValue s = "") :=
  ⟨fun s => cleanValue_eq_amended s,
   fun pathStr valStr h1 h2 => parseDeltaLine_split pathStr valStr h1 h2,
   fun s h => cleanValue_empty s h⟩

/-- C7 witness: the split property instantiated on a line whose value
contains a further colon, plus the empty-value case. -/
theorem c7_witness :
    parseDeltaLine ("activity->progress" ++ ":" ++ " walked 10:30 am,") =
      (if (pathTokens "activity->progress").isEmpty then none
       else some (pathTokens "activity->progress", cleanValue " walked 10:30 am,")) ∧
    cleanValue "  " = "" :=
  ⟨c7_value_parsing.2.1 "activity->progress" " walked 10:30 am," (by decide) (by decide),
   c7_value_parsing.2.2 "  " rfl⟩

/-- C8: normalization is idempotent and merging the empty delta list is a
no-op. Whenever the Shape Normalizer succeeds with tree `t`, running it
again on `t` returns `t` unchanged, and the merge engine applied to `t` with
no deltas also returns `t`. -/
theorem c8_normalize_idempotent (st : Option Val) (t : PyDict)
    (h : genEnsureFixedStateShape st = some t) :
    genEnsureFixedStateShape (some (.vdict t)) = some t ∧
    genApplyDeltas (some (.vdict t)) [] = some t := by
  have hfix := genEnsure_fixpoint t (genEnsure_success_complete st t h)
  refine ⟨hfix, ?_⟩
  rw [genApplyDeltas_nil]
  exact hfix

/-- C8 witness: idempotence and the empty-merge no-op on the default tree
produced from the empty state. -/
theorem c8_witness :
    genEnsureFixedStateShape (some (.vdict genDefaultTree)) = some genDefaultTree ∧
    genApplyDeltas (some (.vdict genDefaultTree)) [] = some genDefaultTree :=
  c8_normalize_idempotent none genDefaultTree rfl

/-- C9 counterexample: when no tag pair is found the extractor does NOT
return the trimmed input text. On the input `< state > x` (an open tag
variant with no close tag) the tag normalizer first rewrites the variant to
the canonical `<STATE>`, and the fallback then returns the trimmed
NORMALIZED text `<STATE> x`, which differs from the trimmed input. -/
theorem c9_counterexample :
    extractUpdatesBody (some "< state > x") = some "<STATE> x" ∧
    some ("<STATE> x" : String) ≠ some "< state > x" := by
  constructor
  · have hdata : ("< state > x" : String).data = "< state >".data ++ " x".data := rfl
    have hnorm : subClose (subOpen ("< state > x" : String).data) =
        openTagChars ++ " x".data := by
      rw [hdata, subOpen_var1, subOpen_no_lt " x".data (by decide), subClose_openTag,
        subClose_no_lt " x".data (by decide)]
    rw [extract_eq_general _ _ hnorm,
      findBodies_openTag_dangling " x".data (by decide)]
    decide
  · decide

/-- C9 (amended): behaviour of the block extractor. An absent input yields an
absent result. An input with no `<` at all is returned trimmed, or absent if
it trims to empty. An unpaired open-tag variant is first normalized, and the
fallback returns the trimmed NORMALIZED text (never absent, since it contains
`<`). When two tag blocks are present, in variant spellings (case-insensitive,
whitespace inside the tag, optional leading underscore), the extractor
returns the trimmed body of the LAST pair. -/
theorem c9_tag_extractor :
    extractUpdatesBody none = none ∧
    (∀ s : String, (∀ c ∈ s.data, c ≠ '<') →
        extractUpdatesBody (some s) =
          (if pyStrip s == "" then none else some (pyStrip s))) ∧
    (∀ t1 t2 : List Char, (∀ c ∈ t1, c ≠ '<') → (∀ c ∈ t2, c ≠ '<') →
        extractUpdatesBody (some (String.mk (t1 ++ ("< state >".data ++ t2)))) =
          some (pyStrip (String.mk (t1 ++ (openTagChars ++ t2))))) ∧
    (∀ t1 b1 t2 b t3 : List Char,
        (∀ c ∈ t1, c ≠ '<') → (∀ c ∈ b1, c ≠ '<') → (∀ c ∈ t2, c ≠ '<') →
        (∀ c ∈ b, c ≠ '<') → (∀ c ∈ t3, c ≠ '<') →
        extractUpdatesBody (some (String.mk (t1 ++ ("< state >".data ++ (b1 ++
            ("</state>".data ++ (t2 ++ ("<_STATE >".data ++ (b ++
              ("< / STATE >".data ++ t3)))))))))) =
          some (pyStrip (String.mk b))) := by
  refine ⟨rfl, ?_, ?_, ?_⟩
  · intro s h
    have hnorm : subClose (subOpen s.data) = s.data := by
      rw [subOpen_no_lt s.data h, subClose_no_lt s.data h]
    rw [extract_eq_general s s.data hnorm, findBodies_no_lt s.data h]
    show (if (pyStrip (String.mk s.data) == "") = true then none
        else some (pyStrip (String.mk s.data))) =
      (if (pyStrip s == "") = true then none else some (pyStrip s))
    rw [string_mk_data]
  · intro t1 t2 h1 h2
    have hnorm : subClose (subOpen (String.mk (t1 ++ ("< state >".data ++ t2))).data) =
        t1 ++ (openTagChars ++ t2) := by
      show subClose (subOpen (t1 ++ ("< state >".data ++ t2))) = _
      rw [subOpen_no_lt_append t1 _ h1, subOpen_var1, subOpen_no_lt t2 h2,
        subClose_no_lt_append t1 _ h1, subClose_openTag, subClose_no_lt t2 h2]
    rw [extract_eq_general _ _ hnorm, findBodies_no_lt_append t1 _ h1,
      findBodies_openTag_dangling t2 h2]
    have hne : (pyStrip (String.mk (t1 ++ (openTagChars ++ t2))) == "") = false :=
      pyStrip_ne_empty_of_mem _ '<'
        (by show ('<' : Char) ∈ t1 ++ (openTagChars ++ t2)
            exact List.mem_append.mpr (Or.inr (List.mem_append.mpr (Or.inl (by decide)))))
        (by decide)
    show (if (pyStrip (String.mk (t1 ++ (openTagChars ++ t2))) == "") = true then none
        else some (pyStrip (String.mk (t1 ++ (openTagChars ++ t2))))) =
      some (pyStrip (String.mk (t1 ++ (openTagChars ++ t2))))
    rw [hne]
    simp
  · intro t1 b1 t2 b t3 h1 h2 h3 h4 h5
    have hnorm := normalize_two_blocks t1 b1 t2 b t3 h1 h2 h3 h4 h5
    rw [extract_eq_general _ _ hnorm,
      findBodies_two_blocks t1 b1 t2 b t3 h1 h2 h3 h4 h5]
    have hlast : ([b1, b] : List (List Char)).getLast? = some b := rfl
    rw [hlast]

/-- C9 witness: the last-pair extraction instantiated on a concrete text
with two variant-spelled blocks, plus surrounding untagged text. -/
theorem c9_witness :
    extractUpdatesBody (some (String.mk ("intro ".data ++ ("< state >".data ++
        ("first".data ++ ("</state>".data ++ (" mid ".data ++ ("<_STATE >".data ++
          (" body 42 ".data ++ ("< / STATE >".data ++ " tail".data)))))))))) =
      some (pyStrip (String.mk " body 42 ".data)) :=
  c9_tag_extractor.2.2.2 "intro ".data "first".data " mid ".data " body 42 ".data
    " tail".data (by decide) (by decide) (by decide) (by decide) (by decide)

/-- C10 counterexample: serialization key order follows the insertion order
of the input tree, not a schema order. Two input trees equal as mappings but
with `activity` and `session` inserted in opposite orders serialize to
different texts. -/
theorem c10_counterexample :
    valEquiv (.vdict [("activity", .vdict []), ("session", .vdict [])])
      (.vdict [("session", .vdict []), ("activity", .vdict [])]) = true ∧
    stateToText (some (.vdict [("activity", .vdict []), ("session", .vdict [])])) ≠
      stateToText (some (.vdict [("session", .vdict []), ("activity", .vdict [])])) := by
  constructor
  · decide
  · decide

/-- C10 (amended): the serialized key order is the insertion order of the
normalized tree: the keys of the input in their original order, followed by
the missing schema keys in schema order; `state_to_text` renders exactly
that tree as indented JSON, so the text is stable only for inputs with the
same key insertion order. -/
theorem c10_serialization_key_order (st : Option Val) (t : PyDict)
    (h : genEnsureFixedStateShape st = some t) :
    keysOf t = keysOf (topTree st) ++
      genTopSchemaKeys.filter (fun k => !(keyMem (topTree st) k)) ∧
    stateToText st = some (jsonVal (.vdict t) 0) := by
  refine ⟨genEnsure_keys st t h, ?_⟩
  unfold stateToText
  rw [h]
  rfl

/-- C10 witness: the key-order and rendering property instantiated on the
empty state and its default tree. -/
theorem c10_witness :
    keysOf genDefaultTree = keysOf (topTree none) ++
      genTopSchemaKeys.filter (fun k => !(keyMem (topTree none) k)) ∧
    stateToText none = some (jsonVal (.vdict genDefaultTree) 0) :=
  c10_serialization_key_order none genDefaultTree rfl
